import Mathlib

/-!
Verification development for the bidirectional relation graph and
symmetric-synchronization engine (the "shard" plugin core).

The definitions below are a shallow embedding of the TypeScript sources:

  * `src/src/domain/Relation.ts`      — `RelationType`, `RelationIdentity`,
    `RelationLabel`, `Relation`, `RelationGraph` (the file also contains the
    graph and the event classes, separated in the original repository).
  * `src/src/domain/RelationCommands.ts` — the four command classes and
    their `validate()` methods.
  * `src/src/services/RelationCommandProcessor.ts` — `execute`,
    `processAddRelation`, `processUpdateRelation`, `processRemoveRelation`,
    `processSyncRelations`, the file write-back helpers and `rebuildGraph`.
  * `src/src/model/ShardParser.ts`    — `parseShardsFromContent`,
    `parseShard`, `cleanPageName`, `expandMultiShard` (textually identical
    to `Parser.expandBraces` in `src/src/parser/Parser.ts`).
  * `src/src/services/inferrer/Inferrer.ts` — the loop-guard cache,
    `getCanonicalKey`, `getInverseRelation`, `addInverseRelation`,
    `removeInverseRelation`, `processChanges`.
  * `src/src/data/enums/RelationType.ts` — `getInverseType`.

JavaScript runtime artefacts are modelled explicitly:

  * `Map` and `Set` (insertion ordered, unique keys) as association lists
    with `mapGet` / `mapSet` / `mapDelete` and `setAdd` / `setDel`;
  * string truthiness (`''` is falsy) with `jsOrStr` / `mkLabelOpt`;
  * `Date` timestamps as `Nat`, threaded as an explicit `now` parameter;
  * thrown exceptions as `Except String`;
  * `String.prototype.trim` / `split` / `join` on `List Char`.
-/

set_option maxHeartbeats 1600000

/-! ### JavaScript primitive models -/

/-- `Map.get`: first entry with the given key (keys are unique in maps built
by `mapSet`, so "first" is "the" entry). -/
def mapGet {α : Type} (m : List (String × α)) (k : String) : Option α :=
  (m.find? (fun p => p.1 == k)).map (·.2)

/-- `Map.set`: replace the existing entry in place, else append. -/
def mapSet {α : Type} : List (String × α) → String → α → List (String × α)
  | [], k, v => [(k, v)]
  | p :: t, k, v => if p.1 = k then (k, v) :: t else p :: mapSet t k v

/-- `Map.delete`. -/
def mapDelete {α : Type} (m : List (String × α)) (k : String) : List (String × α) :=
  m.filter (fun p => !(p.1 == k))

/-- `Set.add` (insertion ordered, no duplicates). -/
def setAdd (s : List String) (k : String) : List String :=
  if s.contains k then s else s ++ [k]

/-- `Set.delete`. -/
def setDel (s : List String) (k : String) : List String :=
  s.filter (fun x => !(x == k))

/-- `String.prototype.trim` (whitespace stripped from both ends). -/
def jsTrim (s : String) : String :=
  ⟨((s.data.dropWhile Char.isWhitespace).reverse.dropWhile Char.isWhitespace).reverse⟩

/-- `String.prototype.split(sep)` on character lists; `"".split` is `[""]`. -/
def jsSplit (sep : Char) : List Char → List (List Char)
  | [] => [[]]
  | c :: cs =>
    match jsSplit sep cs with
    | [] => [[c]]
    | h :: t => if c = sep then [] :: h :: t else (c :: h) :: t

/-- `Array.prototype.join(sep)` on character lists. -/
def jsJoin (sep : Char) : List (List Char) → List Char
  | [] => []
  | [l] => l
  | l :: t => l ++ sep :: jsJoin sep t

/-- `a || b` for a possibly-missing string (`''` is falsy). -/
def jsOrStr (a : Option String) (b : String) : String :=
  match a with
  | some s => if s = "" then b else s
  | none => b

/-- Index of the first list element satisfying `p` (the `for` scans of
`addShardToFile` and `removeShardFromFile`). -/
def firstIdxWhere (p : String → Bool) : List String → Option Nat
  | [] => none
  | a :: t => if p a then some 0 else (firstIdxWhere p t).map (· + 1)

/-! ### Domain model (`src/src/domain/Relation.ts`) -/

/-- `RelationType` — closed enumeration `related | parent | child`. -/
inductive RelationType
  | related
  | parent
  | child
deriving DecidableEq

/-- The string value of the enum member. -/
def typeName : RelationType → String
  | .related => "related"
  | .parent => "parent"
  | .child => "child"

/-- `getInverseType` (`src/src/data/enums/RelationType.ts`, identical to the
private `RelationIdentity.getInverseType` in `domain/Relation.ts`). -/
def getInverseType : RelationType → RelationType
  | .parent => .child
  | .child => .parent
  | .related => .related

/-- An Obsidian `TFile`, reduced to the two fields the engine reads. -/
structure TFile where
  path : String
  basename : String
deriving DecidableEq

/-- `RelationIdentity` — immutable triple `(sourceFile, targetFile, type)`. -/
structure RelationIdentity where
  sourceFile : TFile
  targetFile : TFile
  type : RelationType
deriving DecidableEq

/-- `RelationIdentity.key`: `` `${source.path}|${target.path}|${type}` ``. -/
def RelationIdentity.key (i : RelationIdentity) : String :=
  i.sourceFile.path ++ "|" ++ i.targetFile.path ++ "|" ++ typeName i.type

/-- `RelationIdentity.getInverse`: swap endpoints, invert the type. -/
def RelationIdentity.getInverse (i : RelationIdentity) : RelationIdentity :=
  ⟨i.targetFile, i.sourceFile, getInverseType i.type⟩

/-- `RelationLabel` — optional text plus a last-modified timestamp. -/
structure RelationLabel where
  value : Option String
  lastModified : Nat
deriving DecidableEq

/-- `RelationLabel.isEmpty`: `!this.value || this.value.trim() === ''`. -/
def RelationLabel.isEmpty (l : RelationLabel) : Bool :=
  match l.value with
  | none => true
  | some s => jsTrim s == ""

/-- The two configurable conflict strategies. -/
inductive ConflictStrategy
  | newest
  | preferNonEmpty
deriving DecidableEq

/-- `RelationLabel.merge(other, strategy)`.  JS
`this.lastModified > other.lastModified ? this : other` is rendered as
`if o.lastModified < l.lastModified then l else o`. -/
def RelationLabel.merge (l o : RelationLabel) (strategy : ConflictStrategy) : RelationLabel :=
  match strategy with
  | .newest => if o.lastModified < l.lastModified then l else o
  | .preferNonEmpty =>
    if l.isEmpty && !o.isEmpty then o
    else if !l.isEmpty && o.isEmpty then l
    else if o.lastModified < l.lastModified then l else o

/-- `Relation` — identity, two optional labels, timestamps. -/
structure Relation where
  identity : RelationIdentity
  sourceLabel : Option RelationLabel
  targetLabel : Option RelationLabel
  createdAt : Nat
  modifiedAt : Nat
deriving DecidableEq

/-- `Relation.withLabels(source, target)` — label replacement, bumps
`modifiedAt` to `now`. -/
def Relation.withLabels (r : Relation) (s t : Option RelationLabel) (now : Nat) : Relation :=
  { identity := r.identity, sourceLabel := s, targetLabel := t,
    createdAt := r.createdAt, modifiedAt := now }

/-- `Relation.getInverse` — inverse identity, labels swap roles. -/
def Relation.getInverse (r : Relation) : Relation :=
  { identity := r.identity.getInverse, sourceLabel := r.targetLabel,
    targetLabel := r.sourceLabel, createdAt := r.createdAt, modifiedAt := r.modifiedAt }

/-- `this.sourceLabel && other.sourceLabel ? merge : this.sourceLabel || other.sourceLabel`
(labels are objects, hence truthy whenever present). -/
def mergeOptLabel (a b : Option RelationLabel) (strategy : ConflictStrategy) :
    Option RelationLabel :=
  match a, b with
  | some x, some y => some (x.merge y strategy)
  | some x, none => some x
  | none, some y => some y
  | none, none => none

/-- `Relation.merge(other, strategy)` — throws when the identities (compared
by key, as `RelationIdentity.equals` does) differ. -/
def Relation.merge (r o : Relation) (strategy : ConflictStrategy) (now : Nat) :
    Except String Relation :=
  if r.identity.key = o.identity.key then
    .ok { identity := r.identity,
          sourceLabel := mergeOptLabel r.sourceLabel o.sourceLabel strategy,
          targetLabel := mergeOptLabel r.targetLabel o.targetLabel strategy,
          createdAt := if r.createdAt < o.createdAt then r.createdAt else o.createdAt,
          modifiedAt := now }
  else .error "Cannot merge relations with different identities"

/-- The `?.value` projection used by `findConflicts` and the sync diff:
a missing label and a label whose `value` is `undefined` both read back as
`undefined`. -/
def labelVal (o : Option RelationLabel) : Option String := o.bind (·.value)

/-! ### Shard parser (`src/src/model/ShardParser.ts`) -/

/-- The `type` field of a `ParsedShard`. -/
inductive ShardType
  | regular
  | related
  | parent
  | child
deriving DecidableEq

/-- `ParsedShard` (`src/src/types`): parse result of one shard line. -/
structure ParsedShard where
  type : ShardType
  value : String
  cleanName : Option String
  label : Option String
deriving DecidableEq

/-- The inner helper `getLabelAndRest` of `parseShard`: regex
`/^"([^"]+)"\s+(.*)$/` applied to the trimmed remainder of the line (shard
lines never contain a newline, so `.` covers the whole remainder). -/
def getLabelAndRest (str : String) : Option String × String :=
  let rest := jsTrim str
  match rest.data with
  | '"' :: cs =>
    let content := cs.takeWhile (fun c => c ≠ '"')
    let after := cs.dropWhile (fun c => c ≠ '"')
    match content, after with
    | [], _ => (none, rest)
    | _, '"' :: tl =>
      if tl.takeWhile Char.isWhitespace ≠ [] then
        (some ⟨content⟩, jsTrim ⟨tl.dropWhile Char.isWhitespace⟩)
      else (none, rest)
    | _, _ => (none, rest)
  | _ => (none, rest)

/-- `cleanPageName`: `name.replace(/^\[\[|\]\]$/g, '')` — strip one leading
`[[` and one trailing `]]`. -/
def cleanPageName (name : String) : String :=
  let l := name.data
  let l1 := if l.take 2 = ['[', '['] then l.drop 2 else l
  let l2 :=
    if l1.length ≥ 2 ∧ l1.drop (l1.length - 2) = [']', ']'] then l1.take (l1.length - 2)
    else l1
  ⟨l2⟩

/-- Common branch body of `parseShard` for the three relation symbols. -/
def parseTyped (ty : ShardType) (s : String) : ParsedShard :=
  let lr := getLabelAndRest s
  { type := ty, value := lr.2, cleanName := some (cleanPageName lr.2), label := lr.1 }

/-- `ShardParser.parseShard`. -/
def parseShard (shardStr : String) : ParsedShard :=
  let trimmed := jsTrim shardStr
  match trimmed.data with
  | '=' :: rest => parseTyped .related ⟨rest⟩
  | '>' :: rest => parseTyped .child ⟨rest⟩
  | '<' :: rest => parseTyped .parent ⟨rest⟩
  | _ => { type := .regular, value := trimmed, cleanName := none, label := none }

/-- Split a character list at the first occurrence of `pat`, returning the
part before it and the part after it. -/
def splitFirst (pat : List Char) : List Char → Option (List Char × List Char)
  | [] => if pat = [] then some ([], []) else none
  | c :: cs =>
    if pat.isPrefixOf (c :: cs) then some ([], (c :: cs).drop pat.length)
    else
      match splitFirst pat cs with
      | some (pre, post) => some (c :: pre, post)
      | none => none

/-- The repeated-`exec` loop of the regex `` /```shards\n([\s\S]*?)```/g ``:
each iteration finds the next opening fence and the lazily-matched block up
to the first closing fence.  `fuel` bounds the recursion; the remainder
shrinks at every step, so `length + 1` is always enough. -/
def shardBlocks : Nat → List Char → List (List Char)
  | 0, _ => []
  | fuel + 1, l =>
    match splitFirst ("```shards\n".data) l with
    | none => []
    | some (_, rest) =>
      match splitFirst ("```".data) rest with
      | none => []
      | some (block, rest2) => block :: shardBlocks fuel rest2

/-- `ShardParser.parseShardsFromContent`: every fenced ```` ```shards ````
block, split into trimmed non-empty lines, aggregated in order. -/
def parseShardsFromContent (content : String) : List String :=
  (shardBlocks (content.data.length + 1) content.data).flatMap
    (fun b => ((jsSplit '\n' b).map (fun ln => jsTrim ⟨ln⟩)).filter (fun ln => ln.data ≠ []))

/-- First match of the regex `/\x7b([^\x7d]+)\x7d/` — leftmost `{`, at least
one non-`}` character, up to the first `}`.  Returns
(text before the match, the captured group, text after the match). -/
def findBrace : List Char → Option (List Char × List Char × List Char)
  | [] => none
  | c :: cs =>
    if c = '\x7b' ∧ cs.takeWhile (fun x => x ≠ '\x7d') ≠ [] ∧
        cs.dropWhile (fun x => x ≠ '\x7d') ≠ [] then
      some ([], cs.takeWhile (fun x => x ≠ '\x7d'), (cs.dropWhile (fun x => x ≠ '\x7d')).tail)
    else
      match findBrace cs with
      | some (pre, mid, post) => some (c :: pre, mid, post)
      | none => none

/-- Recursion worker of `expandBraces`; `fuel` bounds the recursion depth.
The suffix handed to the recursive call is strictly shorter than the input
(the brace pair and the group are consumed), so `length` fuel is enough. -/
def expandFuel : Nat → List Char → List (List Char)
  | 0, l => [l]
  | fuel + 1, l =>
    match findBrace l with
    | none => [l]
    | some (pre, mid, post) =>
      let options := (jsSplit ',' mid).map (fun o => (jsTrim ⟨o⟩).data)
      let expanded := expandFuel fuel post
      options.flatMap (fun opt => expanded.map (fun suf => pre ++ opt ++ suf))

/-- `Parser.expandBraces` (`src/src/parser/Parser.ts`), textually identical
to `ShardParser.expandMultiShard` (`src/src/model/ShardParser.ts`): expand
the first `\x7b…\x7d` group into its comma-alternatives (trimmed), recursively
expanding the suffix, options outer loop and suffixes inner loop. -/
def expandBraces (s : String) : List String :=
  (expandFuel s.data.length s.data).map (fun l => ⟨l⟩)

/-- `ShardParser.expandMultiShard` — the same function, see `expandBraces`. -/
def expandMultiShard (s : String) : List String := expandBraces s

/-! ### Relation graph (`RelationGraph` in `src/src/domain/Relation.ts`) -/

/-- The graph: relation map keyed by `identity.key`, plus the two reverse
indices (path → set of keys). -/
structure RelationGraph where
  relations : List (String × Relation)
  bySource : List (String × List String)
  byTarget : List (String × List String)
deriving DecidableEq

/-- A fresh graph (constructor / `clear()`). -/
def RelationGraph.empty : RelationGraph := ⟨[], [], []⟩

/-- Read an index bucket (a missing path reads as the empty set). -/
def bucketGet (m : List (String × List String)) (p : String) : List String :=
  (mapGet m p).getD []

/-- `addToIndexes` on one index: create the bucket when missing, add the key. -/
def bucketAdd (m : List (String × List String)) (p k : String) :
    List (String × List String) :=
  match mapGet m p with
  | some s => mapSet m p (setAdd s k)
  | none => mapSet m p [k]

/-- `removeFromIndexes` on one index: delete the key, garbage-collect the
bucket when it becomes empty. -/
def bucketDel (m : List (String × List String)) (p k : String) :
    List (String × List String) :=
  match mapGet m p with
  | some s =>
    let s' := setDel s k
    if s' = [] then mapDelete m p else mapSet m p s'
  | none => m

/-- `RelationGraph.addToIndexes`. -/
def addToIndexes (g : RelationGraph) (r : Relation) : RelationGraph :=
  { g with
    bySource := bucketAdd g.bySource r.identity.sourceFile.path r.identity.key,
    byTarget := bucketAdd g.byTarget r.identity.targetFile.path r.identity.key }

/-- `RelationGraph.removeFromIndexes`. -/
def removeFromIndexes (g : RelationGraph) (r : Relation) : RelationGraph :=
  { g with
    bySource := bucketDel g.bySource r.identity.sourceFile.path r.identity.key,
    byTarget := bucketDel g.byTarget r.identity.targetFile.path r.identity.key }

/-- `RelationGraph.addRelation`: de-index the entry being replaced (if any),
store at the key, re-index. -/
def RelationGraph.addRelation (g : RelationGraph) (r : Relation) : RelationGraph :=
  let key := r.identity.key
  let g1 :=
    match mapGet g.relations key with
    | some existing => removeFromIndexes g existing
    | none => g
  addToIndexes { g1 with relations := mapSet g1.relations key r } r

/-- `RelationGraph.removeRelation`. -/
def RelationGraph.removeRelation (g : RelationGraph) (i : RelationIdentity) : RelationGraph :=
  match mapGet g.relations i.key with
  | some rel => removeFromIndexes { g with relations := mapDelete g.relations i.key } rel
  | none => g

/-- `RelationGraph.getRelation`. -/
def RelationGraph.getRelation (g : RelationGraph) (i : RelationIdentity) : Option Relation :=
  mapGet g.relations i.key

/-- `RelationGraph.getRelationsBySource`: resolve the source bucket's keys
through the relation map, dropping dangling keys. -/
def RelationGraph.getRelationsBySource (g : RelationGraph) (f : TFile) : List Relation :=
  (bucketGet g.bySource f.path).filterMap (fun k => mapGet g.relations k)

/-- The label comparison of `findConflicts`: the stored inverse relation's
labels versus what `relation.getInverse()` would produce. -/
def inverseMismatch (r ir : Relation) : Bool :=
  let expected := r.getInverse
  decide (labelVal ir.sourceLabel ≠ labelVal expected.sourceLabel) ||
  decide (labelVal ir.targetLabel ≠ labelVal expected.targetLabel)

/-- `RelationGraph.findConflicts` (`inverse-mismatch` pairs; the
`duplicate-type` arm of the result type is never produced by the source). -/
def RelationGraph.findConflicts (g : RelationGraph) : List (Relation × Relation) :=
  g.relations.flatMap (fun p =>
    match mapGet g.relations p.2.identity.getInverse.key with
    | some ir => if inverseMismatch p.2 ir then [(p.2, ir)] else []
    | none => [])

/-! ### Vault model and textual write-back
(`src/src/services/RelationCommandProcessor.ts`)

The Obsidian vault is an ordered list of files with their text.  `read` of a
file that has no stored text yields `""` (the semantics of the repository's
test harness mock, `tests/inferrer.test.ts`). -/

/-- The document store: file plus current text. -/
abbrev Vault : Type := List (TFile × String)

/-- `vault.read(file)` (missing text reads as `""`). -/
def vaultRead (v : Vault) (f : TFile) : String :=
  ((v.find? (fun p => p.1.path == f.path)).map (·.2)).getD ""

/-- `vault.modify(file, newText)`: replace the file's text in place
(append the file when it was not listed). -/
def vaultWrite : Vault → TFile → String → Vault
  | [], f, c => [(f, c)]
  | p :: t, f, c => if p.1.path = f.path then (p.1, c) :: t else p :: vaultWrite t f c

/-- `vault.getMarkdownFiles()`. -/
def vaultFiles (v : Vault) : List TFile := v.map (·.1)

/-- `findFileByName`: first markdown file whose basename matches. -/
def findFileByName (files : List TFile) (name : String) : Option TFile :=
  files.find? (fun f => f.basename == name)

/-- `getShardPrefix`: the symbol written for each relation type. -/
def getShardSymbol : RelationType → String
  | .related => "="
  | .parent => "<"
  | .child => ">"

/-- `createShardLine`: `` `${prefix} "${label}" ${targetName}` `` when the
source label is present and non-empty, else `` `${prefix} ${targetName}` ``. -/
def createShardLine (r : Relation) : String :=
  let sym := getShardSymbol r.identity.type
  let targetName := r.identity.targetFile.basename
  match r.sourceLabel with
  | some l =>
    if !l.isEmpty then sym ++ " \"" ++ l.value.getD "" ++ "\" " ++ targetName
    else sym ++ " " ++ targetName
  | none => sym ++ " " ++ targetName

/-- `content.split('\n')` as a list of strings. -/
def splitLines (content : String) : List String :=
  (jsSplit '\n' content.data).map (fun l => (⟨l⟩ : String))

/-- `lines.join('\n')`. -/
def joinLines (lines : List String) : String :=
  ⟨jsJoin '\n' (lines.map String.data)⟩

/-- The structural shard comparison used both by the duplicate check in
`updateFileForRelation` and by `removeShardFromFile`: same type, same
resolved target name (`cleanName || value`), same label. -/
def shardEq (a b : ParsedShard) : Bool :=
  a.type == b.type &&
  jsOrStr a.cleanName a.value == jsOrStr b.cleanName b.value &&
  a.label == b.label

/-- Index of the insertion point inside an existing ```` ```shards ````
block: the scan of `addShardToFile` (first line equal to `` ```shards ``,
then the first subsequent line equal to `` ``` ``). -/
def findFenceEnd (lines : List String) : Option Nat :=
  match firstIdxWhere (fun l => l == "```shards") lines with
  | none => none
  | some i =>
    match firstIdxWhere (fun l => l == "```") (lines.drop (i + 1)) with
    | none => none
    | some d => some (i + 1 + d)

/-- `addShardToFile`: splice the line before the closing fence, or append a
fresh block at the end of the file. -/
def addShardToFile (v : Vault) (f : TFile) (shardLine : String) : Vault :=
  let content := vaultRead v f
  let lines := splitLines content
  let lines' :=
    match findFenceEnd lines with
    | some blockEnd => lines.take blockEnd ++ [shardLine] ++ lines.drop blockEnd
    | none =>
      let lines1 :=
        if content ≠ "" ∧ content.data.getLast? ≠ some '\n' then lines ++ [""] else lines
      lines1 ++ ["```shards", shardLine, "```"]
  vaultWrite v f (joinLines lines')

/-- `updateFileForRelation`: write the textual declaration into
`relation.identity.sourceFile` unless a structurally-equal line exists. -/
def updateFileForRelation (v : Vault) (r : Relation) : Vault :=
  let f := r.identity.sourceFile
  let content := vaultRead v f
  let shardLine := createShardLine r
  let shardLines := parseShardsFromContent content
  let newShard := parseShard shardLine
  if shardLines.any (fun line => shardEq (parseShard line) newShard) then v
  else addShardToFile v f shardLine

/-- The line predicate of `removeShardFromFile`'s scan: non-blank after
trimming, and parsed components equal to those of the shard being removed. -/
def removesLine (toRemove : ParsedShard) (ln : String) : Bool :=
  jsTrim ln ≠ "" && shardEq (parseShard (jsTrim ln)) toRemove

/-- `removeShardFromFile`: delete the first matching line (if any). -/
def removeShardFromFile (v : Vault) (f : TFile) (shardLine : String) : Vault :=
  let content := vaultRead v f
  let lines := splitLines content
  let toRemove := parseShard shardLine
  let lines' :=
    match firstIdxWhere (removesLine toRemove) lines with
    | some i => lines.eraseIdx i
    | none => lines
  vaultWrite v f (joinLines lines')

/-- `removeRelationFromFile`. -/
def removeRelationFromFile (v : Vault) (r : Relation) : Vault :=
  removeShardFromFile v r.identity.sourceFile (createShardLine r)

/-! ### Commands (`src/src/domain/RelationCommands.ts`) -/

/-- One element of `SyncRelationsCommand.parsedRelations`. -/
structure ParsedRel where
  targetFile : TFile
  type : RelationType
  label : Option String
deriving DecidableEq

/-- The four command classes.  The file fields are `Option` so that the
"missing source/target" validations are expressible; `===` on `TFile`
references is modelled as structural equality (vault files are canonical
one-object-per-path). -/
inductive RelationCommand
  | add (sourceFile targetFile : Option TFile) (ty : RelationType)
      (sourceLabel targetLabel : Option String)
  | update (sourceFile targetFile : Option TFile) (ty : RelationType)
      (sourceLabel targetLabel : Option String) (updateBidirectional : Bool)
  | remove (sourceFile targetFile : Option TFile) (ty : RelationType)
      (removeBidirectional : Bool)
  | sync (sourceFile : Option TFile) (parsedRelations : List ParsedRel)
deriving DecidableEq

/-- The duplicate-target+type scan of `SyncRelationsCommand.validate`. -/
def validateSyncDups (parsed : List ParsedRel) : List String :=
  (parsed.foldl
    (fun (st : List String × List String) rel =>
      let key := rel.targetFile.path ++ "|" ++ typeName rel.type
      let errs :=
        if st.2.contains key then
          st.1 ++ ["Duplicate relation found: " ++ rel.targetFile.basename ++
            " (" ++ typeName rel.type ++ ")"]
        else st.1
      (errs, setAdd st.2 key))
    ([], [])).1

/-- `validate()` of each command class.  The `Object.values(RelationType)
.includes(this.type)` check of `AddRelationCommand` can never fail for a
value of the closed enum and is therefore not represented. -/
def RelationCommand.validate : RelationCommand → List String
  | .add s t _ _ _ =>
    (if s = none then ["Source file is required"] else []) ++
    (if t = none then ["Target file is required"] else []) ++
    (if s = t then ["Cannot create relation to the same file"] else [])
  | .update s t _ _ _ _ =>
    if s = none ∨ t = none then ["Both source and target files are required"] else []
  | .remove s t _ _ =>
    if s = none ∨ t = none then ["Both source and target files are required"] else []
  | .sync s parsed =>
    (if s = none then ["Source file is required"] else []) ++ validateSyncDups parsed

/-! ### Command processor (`src/src/services/RelationCommandProcessor.ts`) -/

/-- `CommandProcessorConfig`. -/
structure CommandProcessorConfig where
  conflictStrategy : ConflictStrategy
  enableBidirectionalSync : Bool
  showNotifications : Bool
deriving DecidableEq

/-- `x ? new RelationLabel(x) : undefined` for an optional string command
field (the empty string is falsy). -/
def mkLabelOpt (l : Option String) (now : Nat) : Option RelationLabel :=
  match l with
  | some s => if s = "" then none else some ⟨some s, now⟩
  | none => none

/-- `cond ? a : b` where `cond` is the truthiness of the command's label
argument: keep `a` when present, else fall back to `b`. -/
def jsOrLabel (a b : Option RelationLabel) : Option RelationLabel :=
  match a with
  | some x => some x
  | none => b

/-- The body of `processAddRelation` after its existence check found no
entry: insert the relation, write it back, then mirror (merge into an
existing inverse or create a fresh one). -/
def processAddFresh (cfg : CommandProcessorConfig) (now : Nat) (g : RelationGraph)
    (v : Vault) (src tgt : TFile) (ty : RelationType) (srcL tgtL : Option String) :
    Except String (RelationGraph × Vault) :=
  let identity : RelationIdentity := ⟨src, tgt, ty⟩
  let relation : Relation := ⟨identity, mkLabelOpt srcL now, mkLabelOpt tgtL now, now, now⟩
  let g1 := g.addRelation relation
  let v1 := updateFileForRelation v relation
  if cfg.enableBidirectionalSync then
    let inv := relation.getInverse
    match g1.getRelation inv.identity with
    | some existingInverse =>
      match existingInverse.merge inv cfg.conflictStrategy now with
      | .ok merged => .ok (g1.addRelation merged, updateFileForRelation v1 merged)
      | .error e => .error e
    | none => .ok (g1.addRelation inv, updateFileForRelation v1 inv)
  else .ok (g1, v1)

/-- The body of `processUpdateRelation` after its existence check found
`existing`: partial label replacement, write-back, then the same
merge-or-create mirroring. -/
def processUpdateGiven (cfg : CommandProcessorConfig) (now : Nat) (g : RelationGraph)
    (v : Vault) (existing : Relation) (srcL tgtL : Option String)
    (updateBidir : Bool) : Except String (RelationGraph × Vault) :=
  let updated := existing.withLabels
    (jsOrLabel (mkLabelOpt srcL now) existing.sourceLabel)
    (jsOrLabel (mkLabelOpt tgtL now) existing.targetLabel) now
  let g1 := g.addRelation updated
  let v1 := updateFileForRelation v updated
  if updateBidir && cfg.enableBidirectionalSync then
    let invU := updated.getInverse
    match g1.getRelation invU.identity with
    | some e =>
      match e.merge invU cfg.conflictStrategy now with
      | .ok merged => .ok (g1.addRelation merged, updateFileForRelation v1 merged)
      | .error err => .error err
    | none => .ok (g1.addRelation invU, updateFileForRelation v1 invU)
  else .ok (g1, v1)

/-- `processAddRelation`.  When the identity already exists the source
redirects to `processUpdateRelation` with a fresh `UpdateRelationCommand`
(whose `updateBidirectional` defaults to `true`); that call re-checks the
unchanged graph and finds the same entry, so the redirect is unfolded to
`processUpdateGiven` directly. -/
def processAddRelation (cfg : CommandProcessorConfig) (now : Nat) (g : RelationGraph)
    (v : Vault) (src tgt : TFile) (ty : RelationType) (srcL tgtL : Option String) :
    Except String (RelationGraph × Vault) :=
  match g.getRelation ⟨src, tgt, ty⟩ with
  | some existing => processUpdateGiven cfg now g v existing srcL tgtL true
  | none => processAddFresh cfg now g v src tgt ty srcL tgtL

/-- `processUpdateRelation`.  When the identity does not exist the source
redirects to `processAddRelation`, whose re-check again finds nothing, so
the redirect is unfolded to `processAddFresh` directly. -/
def processUpdateRelation (cfg : CommandProcessorConfig) (now : Nat) (g : RelationGraph)
    (v : Vault) (src tgt : TFile) (ty : RelationType) (srcL tgtL : Option String)
    (updateBidir : Bool) : Except String (RelationGraph × Vault) :=
  match g.getRelation ⟨src, tgt, ty⟩ with
  | some existing => processUpdateGiven cfg now g v existing srcL tgtL updateBidir
  | none => processAddFresh cfg now g v src tgt ty srcL tgtL

/-- `processRemoveRelation` (never throws). -/
def processRemoveRelation (cfg : CommandProcessorConfig) (g : RelationGraph) (v : Vault)
    (src tgt : TFile) (ty : RelationType) (removeBidir : Bool) : RelationGraph × Vault :=
  let identity : RelationIdentity := ⟨src, tgt, ty⟩
  match g.getRelation identity with
  | none => (g, v)
  | some existing =>
    let g1 := g.removeRelation identity
    let v1 := removeRelationFromFile v existing
    if removeBidir && cfg.enableBidirectionalSync then
      match g1.getRelation identity.getInverse with
      | some inv => (g1.removeRelation identity.getInverse, removeRelationFromFile v1 inv)
      | none => (g1, v1)
    else (g1, v1)

/-! ### `processSyncRelations` -/

/-- Accumulator of the diff loop of `processSyncRelations`:
(`toRemove`, `toUpdate`, the remaining `desiredMap`). -/
abbrev SyncAcc : Type := List Relation × List (Relation × Relation) × List (String × ParsedRel)

/-- `desiredMap` construction: one `Map.set` per parsed relation. -/
def desiredMapOf (file : TFile) (parsed : List ParsedRel) : List (String × ParsedRel) :=
  parsed.foldl
    (fun m p => mapSet m (RelationIdentity.key ⟨file, p.targetFile, p.type⟩) p) []

/-- One iteration of the diff loop over the current relations. -/
def syncStep (now : Nat) (st : SyncAcc) (current : Relation) : SyncAcc :=
  match mapGet st.2.2 current.identity.key with
  | none => (st.1 ++ [current], st.2.1, st.2.2)
  | some desired =>
    let newLabel := mkLabelOpt desired.label now
    let upd :=
      if labelVal current.sourceLabel ≠ labelVal newLabel then
        st.2.1 ++ [(current, current.withLabels newLabel current.targetLabel now)]
      else st.2.1
    (st.1, upd, mapDelete st.2.2 current.identity.key)

/-- The `toRemove` loop: drop the relation and (bidirectional) its mirror
from graph and target document. -/
def applyRemoves (cfg : CommandProcessorConfig) :
    RelationGraph → Vault → List Relation → RelationGraph × Vault
  | g, v, [] => (g, v)
  | g, v, c :: rest =>
    let g1 := g.removeRelation c.identity
    if cfg.enableBidirectionalSync then
      let v2 := removeRelationFromFile v c.getInverse
      let g2 := g1.removeRelation c.identity.getInverse
      applyRemoves cfg g2 v2 rest
    else applyRemoves cfg g1 v rest

/-- The `toUpdate` loop: store the updated relation and (bidirectional)
re-merge into an existing mirror; a missing mirror is left missing. -/
def applyUpdates (cfg : CommandProcessorConfig) (now : Nat) :
    RelationGraph → Vault → List (Relation × Relation) → Except String (RelationGraph × Vault)
  | g, v, [] => .ok (g, v)
  | g, v, pr :: rest =>
    let updated := pr.2
    let g1 := g.addRelation updated
    if cfg.enableBidirectionalSync then
      let invU := updated.getInverse
      match g1.getRelation invU.identity with
      | some e =>
        match e.merge invU cfg.conflictStrategy now with
        | .ok merged =>
          applyUpdates cfg now (g1.addRelation merged) (updateFileForRelation v merged) rest
        | .error err => .error err
      | none => applyUpdates cfg now g1 v rest
    else applyUpdates cfg now g1 v rest

/-- The `toAdd` loop: store the relation and (bidirectional) its mirror,
writing the mirror's declaration into the target document. -/
def applyAdds (cfg : CommandProcessorConfig) :
    RelationGraph → Vault → List Relation → RelationGraph × Vault
  | g, v, [] => (g, v)
  | g, v, a :: rest =>
    let g1 := g.addRelation a
    if cfg.enableBidirectionalSync then
      let inv := a.getInverse
      applyAdds cfg (g1.addRelation inv) (updateFileForRelation v inv) rest
    else applyAdds cfg g1 v rest

/-- `processSyncRelations`: diff the freshly parsed relation list against
the graph's current relations sourced at `file`, then apply removals,
label-updates and additions in that order. -/
def processSyncRelations (cfg : CommandProcessorConfig) (now : Nat) (g : RelationGraph)
    (v : Vault) (file : TFile) (parsed : List ParsedRel) :
    Except String (RelationGraph × Vault) :=
  let current := g.getRelationsBySource file
  let d := current.foldl (syncStep now) (([], [], desiredMapOf file parsed) : SyncAcc)
  let toAdd := d.2.2.map (fun kp =>
    (⟨⟨file, kp.2.targetFile, kp.2.type⟩, mkLabelOpt kp.2.label now, none, now, now⟩ : Relation))
  let rv := applyRemoves cfg g v d.1
  match applyUpdates cfg now rv.1 rv.2 d.2.1 with
  | .error e => .error e
  | .ok (g2, v2) => .ok (applyAdds cfg g2 v2 toAdd)

/-- `RelationCommandProcessor.execute`: validate, then dispatch.  A
non-empty error list throws before any mutation.  The `Option.some`
destructuring in the dispatch arms is justified by validation (a `none`
file always produces a validation error), so the final catch-all arm is
unreachable. -/
def execute (cfg : CommandProcessorConfig) (now : Nat) (g : RelationGraph) (v : Vault) :
    RelationCommand → Except String (RelationGraph × Vault)
  | cmd =>
    let errors := cmd.validate
    if errors ≠ [] then .error ("Invalid command: " ++ String.intercalate ", " errors)
    else
      match cmd with
      | .add (some s) (some t) ty sl tl => processAddRelation cfg now g v s t ty sl tl
      | .update (some s) (some t) ty sl tl ub => processUpdateRelation cfg now g v s t ty sl tl ub
      | .remove (some s) (some t) ty rb => .ok (processRemoveRelation cfg g v s t ty rb)
      | .sync (some f) parsed => processSyncRelations cfg now g v f parsed
      | _ => .error "unreachable: validation rejects missing files"

/-! ### `rebuildGraph` and the conflict-repair pass -/

/-- `mapToRelationType` (the `regular` arm is unreachable behind the guard
in `rebuildGraph`). -/
def mapShardType : ShardType → RelationType
  | .related => .related
  | .parent => .parent
  | .child => .child
  | .regular => .related

/-- The per-file build loop body of `rebuildGraph`: parse every shard line,
resolve the target by basename, insert the relation (source label only). -/
def rebuildStep (files : List TFile) (now : Nat) (g0 : RelationGraph) (file : TFile)
    (content : String) : RelationGraph :=
  (parseShardsFromContent content).foldl
    (fun g line =>
      let shard := parseShard line
      if shard.type = .related ∨ shard.type = .parent ∨ shard.type = .child then
        match findFileByName files (jsOrStr shard.cleanName shard.value) with
        | none => g
        | some targetFile =>
          let identity : RelationIdentity := ⟨file, targetFile, mapShardType shard.type⟩
          g.addRelation ⟨identity, mkLabelOpt shard.label now, none, now, now⟩
      else g)
    g0

/-- `resolveConflict`: merge the two sides of a reported conflict and write
the merged relation back (into its source document). -/
def resolveConflict (cfg : CommandProcessorConfig) (now : Nat) (g : RelationGraph)
    (v : Vault) (r1 r2 : Relation) : Except String (RelationGraph × Vault) :=
  match r1.merge r2 cfg.conflictStrategy now with
  | .ok merged => .ok (g.addRelation merged, updateFileForRelation v merged)
  | .error e => .error e

/-- The repair loop at the end of `rebuildGraph`: `resolveConflict` for
every conflict reported by `findConflicts()`. -/
def resolveConflictsPass (cfg : CommandProcessorConfig) (now : Nat) :
    RelationGraph → Vault → List (Relation × Relation) → Except String (RelationGraph × Vault)
  | g, v, [] => .ok (g, v)
  | g, v, c :: rest =>
    match resolveConflict cfg now g v c.1 c.2 with
    | .ok gv => resolveConflictsPass cfg now gv.1 gv.2 rest
    | .error e => .error e

/-- `rebuildGraph`: clear, re-parse every document into a fresh graph, then
run the conflict-repair pass. -/
def rebuildGraph (cfg : CommandProcessorConfig) (now : Nat) (v : Vault) :
    Except String (RelationGraph × Vault) :=
  let files := vaultFiles v
  let g := files.foldl (fun g f => rebuildStep files now g f (vaultRead v f)) RelationGraph.empty
  resolveConflictsPass cfg now g v g.findConflicts

/-! ### Inferrer and loop guard (`src/src/services/inferrer/Inferrer.ts`)

This half of the code base works on the lightweight relation record of
`src/src/data/types/Relation.ts` and writes inverse relations into the
target file's frontmatter.  The injected parser (`services/parser/Parser`)
is abstracted as a function argument `parseF`, exactly as the repository's
own tests stub it (`vi.spyOn(parser, 'parse')`). -/

/-- `src/src/data/types/Relation.ts`. -/
structure IRel where
  source : TFile
  target : TFile
  type : RelationType
  label : String
  infer : Bool
deriving DecidableEq

/-- A frontmatter value: YAML string or array of strings. -/
inductive FmVal
  | str (s : String)
  | arr (l : List String)
deriving DecidableEq

/-- A file's frontmatter: key → value map. -/
abbrev Frontmatter : Type := List (String × FmVal)

/-- Inferrer state: loop-guard cache plus the per-file frontmatter store. -/
structure InfState where
  cache : List String
  fm : List (String × Frontmatter)
deriving DecidableEq

/-- Pick the lexicographically sorted pair, as `Array.prototype.sort()` does
for a two-element string array. -/
def sortPair (a b : String) : String × String :=
  if a ≤ b then (a, b) else (b, a)

/-- `Inferrer.getCanonicalKey`: sort the two paths, sort the two type names,
join with `|`. -/
def getCanonicalKey (r : IRel) : String :=
  let fs := sortPair r.source.path r.target.path
  let ts := sortPair (typeName r.type) (typeName (getInverseType r.type))
  fs.1 ++ "|" ++ fs.2 ++ "|" ++ ts.1 ++ "|" ++ ts.2

/-- `Inferrer.getInverseRelation`. -/
def getInverseRelation (r : IRel) : IRel :=
  { source := r.target, target := r.source, type := getInverseType r.type,
    label := r.label, infer := false }

/-- `ensureArray` inside the frontmatter mutation callback. -/
def ensureArray : Option FmVal → List String
  | some (.arr l) => l
  | some (.str s) => if s.length > 0 then [s] else []
  | none => []

/-- The `processFrontMatter` callback of `addInverseRelation`: append
`[[target]]` under the inverse-type key unless already present. -/
def fmAddEntry (fm : Frontmatter) (key target : String) : Frontmatter :=
  let currentValues := ensureArray (mapGet fm key)
  if currentValues.contains target then fm
  else mapSet fm key (.arr (currentValues ++ [target]))

/-- The `processFrontMatter` callback of `removeInverseRelation`: filter the
link out of an array value (dropping the key when it empties), or delete a
string value equal to the link. -/
def fmRemoveEntry (fm : Frontmatter) (key targetLink : String) : Frontmatter :=
  match mapGet fm key with
  | some (.arr l) =>
    let next := l.filter (fun item => !(item == targetLink))
    if next.length > 0 then mapSet fm key (.arr next) else mapDelete fm key
  | some (.str s) => if s = targetLink then mapDelete fm key else fm
  | none => fm

/-- Read a file's frontmatter from the store (missing file: empty). -/
def fmOf (st : InfState) (path : String) : Frontmatter :=
  (mapGet st.fm path).getD []

/-- `Inferrer.addInverseRelation`: skip self-relations; consume a cached
canonical key without writing (the loop guard); otherwise skip when the
parsed target already declares the inverse, else write the inverse link
into the target's frontmatter and arm the guard. -/
def addInverseRelation (parseF : InfState → TFile → Option (List IRel))
    (st : InfState) (r : IRel) : InfState :=
  if r.source.path = r.target.path then st
  else
    let operationKey := getCanonicalKey r
    if st.cache.contains operationKey then
      { st with cache := setDel st.cache operationKey }
    else
      let inverse := getInverseRelation r
      let inverseExists :=
        match parseF st r.target with
        | some rels => rels.any (fun x =>
            x.target.path == inverse.target.path && x.type == inverse.type)
        | none => false
      if inverseExists then st
      else
        let key := typeName inverse.type
        let target := "[[" ++ inverse.target.path ++ "]]"
        let fm' := fmAddEntry (fmOf st r.target.path) key target
        { cache := setAdd st.cache operationKey,
          fm := mapSet st.fm r.target.path fm' }

/-- `Inferrer.removeInverseRelation` (same guard shape, removal write). -/
def removeInverseRelation (st : InfState) (r : IRel) : InfState :=
  if r.source.path = r.target.path then st
  else
    let operationKey := getCanonicalKey r
    if st.cache.contains operationKey then
      { st with cache := setDel st.cache operationKey }
    else
      let inverse := getInverseRelation r
      let key := typeName inverse.type
      let targetLink := "[[" ++ inverse.target.path ++ "]]"
      let fm' := fmRemoveEntry (fmOf st r.target.path) key targetLink
      { cache := setAdd st.cache operationKey,
        fm := mapSet st.fm r.target.path fm' }

/-- `Inferrer.processChanges`: removals first, then additions. -/
def processChanges (parseF : InfState → TFile → Option (List IRel))
    (st : InfState) (added removed : List IRel) : InfState :=
  let st1 := removed.foldl removeInverseRelation st
  added.foldl (addInverseRelation parseF) st1

/-! ### Invariants of the relation graph

`KeyedOk`/`wfG` capture the structural consistency the graph code maintains
(entries stored under their identity's key; index buckets sound, complete
and duplicate-free).  `relClean` states the two side conditions under which
the string key `src|tgt|type` is injective and mirrors cannot collide with
their own relation: no `|` in a document path and no self-relations. -/

/-- The document path contains no `|` (the key separator). -/
def fileClean (f : TFile) : Bool := !(f.path.data.contains '|')

/-- Pipe-free endpoints and not a self-relation. -/
def relClean (r : Relation) : Bool :=
  fileClean r.identity.sourceFile && fileClean r.identity.targetFile &&
  r.identity.sourceFile.path != r.identity.targetFile.path

/-- `relClean`, stated on a bare identity. -/
def idClean (i : RelationIdentity) : Bool :=
  fileClean i.sourceFile && fileClean i.targetFile &&
  i.sourceFile.path != i.targetFile.path

/-- Every stored entry sits under its identity's key. -/
def KeyedOk (g : RelationGraph) : Prop :=
  ∀ k rel, mapGet g.relations k = some rel → rel.identity.key = k

/-- Every stored relation is pipe-free and non-self. -/
def CleanRels (g : RelationGraph) : Prop :=
  ∀ k rel, mapGet g.relations k = some rel → relClean rel = true

/-- The relation map has no duplicate keys. -/
def KeysNodup (g : RelationGraph) : Prop :=
  (g.relations.map Prod.fst).Nodup

/-- Index soundness: every key in a bucket resolves to a live relation
whose source (resp. target) path is the bucket's path. -/
def IdxSound (g : RelationGraph) : Prop :=
  (∀ q k, k ∈ bucketGet g.bySource q →
    (mapGet g.relations k).map (fun r => r.identity.sourceFile.path) = some q) ∧
  (∀ q k, k ∈ bucketGet g.byTarget q →
    (mapGet g.relations k).map (fun r => r.identity.targetFile.path) = some q)

/-- Index completeness: every stored relation is listed in both buckets. -/
def IdxComplete (g : RelationGraph) : Prop :=
  ∀ k rel, mapGet g.relations k = some rel →
    k ∈ bucketGet g.bySource rel.identity.sourceFile.path ∧
    k ∈ bucketGet g.byTarget rel.identity.targetFile.path

/-- Buckets are duplicate-free sets. -/
def BucketsNodup (g : RelationGraph) : Prop :=
  (∀ q, (bucketGet g.bySource q).Nodup) ∧ (∀ q, (bucketGet g.byTarget q).Nodup)

/-- Full structural graph consistency. -/
def wfG (g : RelationGraph) : Prop :=
  KeysNodup g ∧ IdxSound g ∧ IdxComplete g ∧ BucketsNodup g

/-- The claim's mirror property for one stored relation: the graph has an
entry under the inverse identity's key, that entry's identity is
`(target, source, inverse type)`, and its labels agree with `getInverse()`
of the relation unless the pair is a pending `findConflicts()` mismatch. -/
def mirrorForB (g : RelationGraph) (r : Relation) : Bool :=
  ((mapGet g.relations r.identity.getInverse.key).map (fun x =>
    x.identity.sourceFile.path == r.identity.targetFile.path &&
    x.identity.targetFile.path == r.identity.sourceFile.path &&
    x.identity.type == getInverseType r.identity.type &&
    ((labelVal x.sourceLabel == labelVal r.getInverse.sourceLabel &&
      labelVal x.targetLabel == labelVal r.getInverse.targetLabel) ||
      inverseMismatch r x))).getD false

/-- The mirror invariant: every stored relation `(A,B,type)` has a stored
`(B,A,inverse type)` with `getInverse()`-consistent labels, up to pending
conflict-resolution merges. -/
def MirrorG (g : RelationGraph) : Prop :=
  ∀ p ∈ g.relations, mirrorForB g p.2 = true

/-- The key-level core of the mirror property: every stored relation's
inverse identity key is occupied. -/
def keyMirror (g : RelationGraph) : Prop :=
  ∀ k rel, mapGet g.relations k = some rel →
    (mapGet g.relations rel.identity.getInverse.key).isSome = true

/-- The inductive invariant: structural consistency, clean stored
relations, and the mirror property. -/
def InvG (g : RelationGraph) : Prop :=
  KeyedOk g ∧ CleanRels g ∧ wfG g ∧ MirrorG g

/-- The working form of the invariant used inside the preservation proofs:
`MirrorG` replaced by its key-level core (the two are interderivable under
the structural conjuncts). -/
def StateInv (g : RelationGraph) : Prop :=
  KeyedOk g ∧ CleanRels g ∧ wfG g ∧ keyMirror g

/-- Well-formedness of a command for the (amended) mirror-invariant claim:
files present and pipe-free, no self-relation (the amendment the
counterexample forces: `SyncRelationsCommand.validate` does not reject
them), and the per-command bidirectional flags at their defaults. -/
def cmdOkB : RelationCommand → Bool
  | .add s t _ _ _ =>
    match s, t with
    | some fs, some ft => fileClean fs && fileClean ft && fs.path != ft.path
    | _, _ => false
  | .update s t _ _ _ ub =>
    (match s, t with
     | some fs, some ft => fileClean fs && fileClean ft && fs.path != ft.path
     | _, _ => false) && ub
  | .remove s t _ rb =>
    (match s, t with
     | some fs, some ft => fileClean fs && fileClean ft && fs.path != ft.path
     | _, _ => false) && rb
  | .sync s parsed =>
    match s with
    | some f =>
      fileClean f &&
      parsed.all (fun p => fileClean p.targetFile && p.targetFile.path != f.path)
    | none => false

/-! ### Concrete scenario constants used by witnesses and counterexamples -/

/-- A two-file vault's documents. -/
def fileA : TFile := ⟨"A.md", "A"⟩

def fileB : TFile := ⟨"B.md", "B"⟩

/-- The default processor configuration (`prefer-non-empty`, bidirectional
sync enabled, notifications on). -/
def procCfg : CommandProcessorConfig := ⟨.preferNonEmpty, true, true⟩

/-- C1 counterexample, step 1: sync `A.md` to the single self-relation
`(A, parent, "l")` — accepted by `SyncRelationsCommand.validate`. -/
def c1cmd1 : RelationCommand := .sync (some fileA) [⟨fileA, .parent, some "l"⟩]

/-- C1 counterexample, step 2: the same sync with only the label changed. -/
def c1cmd2 : RelationCommand := .sync (some fileA) [⟨fileA, .parent, some "new"⟩]

/-- C1 counterexample: result of executing step 1 from the empty graph. -/
def c1step1 : Except String (RelationGraph × Vault) :=
  execute procCfg 0 RelationGraph.empty [(fileA, "")] c1cmd1

/-- C1 counterexample: result of executing step 2 on step 1's output. -/
def c1step2 : Except String (RelationGraph × Vault) :=
  match c1step1 with
  | .ok gv => execute procCfg 1 gv.1 gv.2 c1cmd2
  | .error e => .error e

/-- The graph after the two successful syncs. -/
def c1finalGraph : RelationGraph :=
  match c1step2 with
  | .ok gv => gv.1
  | .error _ => RelationGraph.empty

/-- C1 witness input: an ordinary labeled add between two distinct files. -/
def c1wCmd : RelationCommand := .add (some fileA) (some fileB) .child (some "lbl") none

/-- C1 witness output state. -/
def c1wOut : RelationGraph × Vault :=
  ((execute procCfg 0 RelationGraph.empty [(fileA, ""), (fileB, "")] c1wCmd).toOption).getD
    (RelationGraph.empty, [])

/-- C3 failing input: `A.md` declares `> "x" B`, `B.md` declares `< A` —
a labeled child/parent pair whose labels disagree, hence a reported
inverse-mismatch conflict. -/
def c3vault : Vault :=
  [(fileA, "```shards\n> \"x\" B\n```"), (fileB, "```shards\n< A\n```")]

/-- The graph produced by `rebuildGraph`'s build loop on `c3vault`, before
the conflict-repair pass. -/
def c3buildGraph : RelationGraph :=
  (vaultFiles c3vault).foldl
    (fun g f => rebuildStep (vaultFiles c3vault) 7 g f (vaultRead c3vault f))
    RelationGraph.empty

/-- C7 witness: a command declaring a relation from a document to itself. -/
def c7cmd : RelationCommand := .add (some fileA) (some fileA) .child none none

/-- C8 witness: initially stored relation. -/
def c8rel0 : Relation := ⟨⟨fileA, fileB, .child⟩, some ⟨some "old", 0⟩, none, 0, 0⟩

/-- C8 witness: same identity, changed label. -/
def c8rel1 : Relation := ⟨⟨fileA, fileB, .child⟩, some ⟨some "new", 1⟩, none, 0, 1⟩

/-- C8 witness: one-relation graph. -/
def c8graph : RelationGraph := RelationGraph.empty.addRelation c8rel0

/-- C2 witness: a parser stub that reports no parsed relations (the claim's
premise that the inverse did not yet exist in `B`). -/
def c2parse0 : InfState → TFile → Option (List IRel) := fun _ _ => none

/-- C2 witness: the user's relation `child A→B`. -/
def c2r1 : IRel := ⟨fileA, fileB, .child, "", false⟩

/-- C2 witness: the echoed relation `parent B→A` observed on B's reparse. -/
def c2r2 : IRel := ⟨fileB, fileA, .parent, "", false⟩

/-- C10 witness vault: two structurally equal `> B` lines around other
text. -/
def c10vault : Vault := [(fileA, "x\n> B\n> B\nrest")]

/-- `true` iff the command execution resolved (did not throw). -/
def exceptIsOk {ε α : Type} : Except ε α → Bool
  | .ok _ => true
  | .error _ => false

/-- Decidable equality on `Except` results, for evaluating concrete runs. -/
instance {ε α : Type} [DecidableEq ε] [DecidableEq α] : DecidableEq (Except ε α) := fun x y =>
  match x, y with
  | .ok a, .ok b =>
    if h : a = b then isTrue (by rw [h]) else isFalse (fun he => h (by injection he))
  | .error a, .error b =>
    if h : a = b then isTrue (by rw [h]) else isFalse (fun he => h (by injection he))
  | .ok _, .error _ => isFalse (fun he => Except.noConfusion he)
  | .error _, .ok _ => isFalse (fun he => Except.noConfusion he)

/-! ### Basic lemmas about the JS primitive models -/

lemma mapGet_nil {α : Type} (k : String) : mapGet ([] : List (String × α)) k = none := rfl

lemma mapGet_cons {α : Type} (p : String × α) (m : List (String × α)) (k : String) :
    mapGet (p :: m) k = if p.1 = k then some p.2 else mapGet m k := by
  by_cases h : p.1 = k <;> simp [mapGet, List.find?_cons, h]

lemma mapGet_set {α : Type} (m : List (String × α)) (k : String) (v : α) (k' : String) :
    mapGet (mapSet m k v) k' = if k' = k then some v else mapGet m k' := by
  induction m with
  | nil =>
    by_cases h : k' = k
    · subst h
      simp [mapSet, mapGet_cons]
    · have h' : ¬(k = k') := fun e => h e.symm
      simp [mapSet, mapGet_cons, mapGet_nil, h, h']
  | cons p t ih =>
    by_cases hpk : p.1 = k
    · rw [show mapSet (p :: t) k v = (k, v) :: t from by simp [mapSet, hpk]]
      rw [mapGet_cons, mapGet_cons]
      by_cases h : k' = k
      · subst h
        simp
      · have h' : ¬(k = k') := fun e => h e.symm
        have hp' : ¬(p.1 = k') := by rw [hpk]; exact h'
        simp [h, h', hp']
    · rw [show mapSet (p :: t) k v = p :: mapSet t k v from by simp [mapSet, hpk]]
      rw [mapGet_cons, mapGet_cons, ih]
      by_cases hp' : p.1 = k'
      · have h : ¬(k' = k) := fun e => hpk (by rw [hp', e])
        simp [hp', h]
      · simp [hp']

lemma mapGet_delete {α : Type} (m : List (String × α)) (k k' : String) :
    mapGet (mapDelete m k) k' = if k' = k then none else mapGet m k' := by
  induction m with
  | nil => simp [mapDelete, mapGet_nil]
  | cons p t ih =>
    by_cases hpk : p.1 = k
    · rw [show mapDelete (p :: t) k = mapDelete t k from by
        simp [mapDelete, List.filter_cons, hpk]]
      rw [ih]
      by_cases h : k' = k
      · simp [h]
      · have hp' : ¬(p.1 = k') := by rw [hpk]; exact fun e => h e.symm
        simp [h, mapGet_cons, hp']
    · rw [show mapDelete (p :: t) k = p :: mapDelete t k from by
        simp [mapDelete, List.filter_cons, hpk]]
      rw [mapGet_cons, ih, mapGet_cons]
      by_cases hp' : p.1 = k'
      · have h : ¬(k' = k) := fun e => hpk (hp'.trans e)
        simp [hp', h]
      · simp [hp']

lemma mapGet_some_mem {α : Type} {m : List (String × α)} {k : String} {v : α}
    (h : mapGet m k = some v) : (k, v) ∈ m := by
  induction m with
  | nil => simp [mapGet_nil] at h
  | cons p t ih =>
    rw [mapGet_cons] at h
    by_cases h2 : p.1 = k
    · rw [if_pos h2] at h
      have hp : p = (k, v) := by
        obtain ⟨p1, p2⟩ := p
        simp only at h2
        subst h2
        injection h with h
        subst h
        rfl
      rw [hp]
      exact List.mem_cons_self _ _
    · rw [if_neg h2] at h
      exact List.mem_cons_of_mem _ (ih h)

/-! ### C4: inversion is involutive -/

/-- **C4** — For every relation `r`, `r.getInverse().getInverse() == r`
(identity unchanged, labels back in their original roles), and likewise for
every relation identity. -/
theorem getInverse_involutive :
    (∀ r : Relation, r.getInverse.getInverse = r) ∧
    (∀ i : RelationIdentity, i.getInverse.getInverse = i) := by
  constructor
  · intro r
    obtain ⟨⟨s, t, ty⟩, sl, tl, c, m⟩ := r
    cases ty <;> rfl
  · intro i
    obtain ⟨s, t, ty⟩ := i
    cases ty <;> rfl

/-! ### C5: canonical-key symmetry -/

lemma sortPair_comm (a b : String) : sortPair a b = sortPair b a := by
  unfold sortPair
  by_cases hab : a ≤ b <;> by_cases hba : b ≤ a
  · have h : a = b := le_antisymm hab hba
    subst h
    rfl
  · rw [if_pos hab, if_neg hba]
  · rw [if_neg hab, if_pos hba]
  · exact absurd (le_total a b) (by tauto)

lemma canonicalKey_inverse_eq (r : IRel) :
    getCanonicalKey r = getCanonicalKey (getInverseRelation r) := by
  obtain ⟨s, t, ty, l, i⟩ := r
  cases ty
  · simp only [getCanonicalKey, getInverseRelation, getInverseType, typeName]
    rw [sortPair_comm s.path t.path]
  · simp only [getCanonicalKey, getInverseRelation, getInverseType, typeName]
    rw [sortPair_comm s.path t.path, sortPair_comm "parent" "child"]
  · simp only [getCanonicalKey, getInverseRelation, getInverseType, typeName]
    rw [sortPair_comm s.path t.path, sortPair_comm "child" "parent"]

/-- **C5** — For every relation, the canonical loop-guard key equals the
canonical key of its inverse relation: the key sorts the two document paths
and the pair of type names, so `add child A→B` and `add parent B→A` produce
the same key. -/
theorem canonicalKey_symmetric (r : IRel) :
    getCanonicalKey r = getCanonicalKey (getInverseRelation r) :=
  canonicalKey_inverse_eq r

/-! ### C6: label merge strategies -/

/-- **C6** — `a.merge(b, 'newest')` returns the most recently modified of
the two (one of `a`, `b`, carrying the maximal timestamp; exactly the later
one when the timestamps differ).  `a.merge(b, 'prefer-non-empty')` returns
the non-empty one when exactly one side is empty, and otherwise falls back
to the same recency rule. -/
theorem relationLabel_merge_spec (a b : RelationLabel) :
    ((a.merge b .newest = a ∨ a.merge b .newest = b) ∧
     (a.merge b .newest).lastModified = max a.lastModified b.lastModified ∧
     (b.lastModified < a.lastModified → a.merge b .newest = a) ∧
     (a.lastModified < b.lastModified → a.merge b .newest = b)) ∧
    ((a.isEmpty = true → b.isEmpty = false → a.merge b .preferNonEmpty = b) ∧
     (a.isEmpty = false → b.isEmpty = true → a.merge b .preferNonEmpty = a) ∧
     (a.isEmpty = b.isEmpty →
       ((a.merge b .preferNonEmpty = a ∨ a.merge b .preferNonEmpty = b) ∧
        (a.merge b .preferNonEmpty).lastModified = max a.lastModified b.lastModified ∧
        (b.lastModified < a.lastModified → a.merge b .preferNonEmpty = a) ∧
        (a.lastModified < b.lastModified → a.merge b .preferNonEmpty = b)))) := by
  have hn : a.merge b .newest =
      if b.lastModified < a.lastModified then a else b := rfl
  have hp : a.merge b .preferNonEmpty =
      if a.isEmpty && !b.isEmpty then b
      else if !a.isEmpty && b.isEmpty then a
      else if b.lastModified < a.lastModified then a else b := rfl
  rw [hn, hp]
  refine ⟨⟨?_, ?_, ?_, ?_⟩, ?_, ?_, ?_⟩
  · split_ifs <;> [exact Or.inl rfl; exact Or.inr rfl]
  · split_ifs with h <;> omega
  · intro h
    rw [if_pos h]
  · intro h
    rw [if_neg (by omega)]
  · intro ha hb
    simp [ha, hb]
  · intro ha hb
    simp [ha, hb]
  · intro hab
    have h1 : (a.isEmpty && !b.isEmpty) = false := by
      rw [hab]
      cases b.isEmpty <;> simp
    have h2 : (!a.isEmpty && b.isEmpty) = false := by
      rw [hab]
      cases b.isEmpty <;> simp
    rw [if_neg (by simp [h1]), if_neg (by simp [h2])]
    refine ⟨?_, ?_, ?_, ?_⟩
    · split_ifs <;> [exact Or.inl rfl; exact Or.inr rfl]
    · split_ifs with h <;> omega
    · intro h
      rw [if_pos h]
    · intro h
      rw [if_neg (by omega)]

/-- Witness for C6 at concrete labels: `a = ("x", t=5)`, `b = (absent, t=3)`
— `newest` picks `a` (later), `prefer-non-empty` picks `a` (non-empty). -/
theorem relationLabel_merge_spec_witness :
    (⟨some "x", 5⟩ : RelationLabel).merge ⟨none, 3⟩ .newest = ⟨some "x", 5⟩ ∧
    (⟨some "x", 5⟩ : RelationLabel).merge ⟨none, 3⟩ .preferNonEmpty = ⟨some "x", 5⟩ :=
  ⟨(relationLabel_merge_spec ⟨some "x", 5⟩ ⟨none, 3⟩).1.2.2.1 (by decide),
   (relationLabel_merge_spec ⟨some "x", 5⟩ ⟨none, 3⟩).2.2.1 (by decide) (by decide)⟩

/-! ### C9: brace expansion -/

/-- **C9** — Brace expansion of `a/\x7bx,y\x7d/\x7b1,2\x7d` yields exactly
`a/x/1, a/x/2, a/y/1, a/y/2`, in that stable order, with no duplicates. -/
theorem expandBraces_cartesian :
    expandBraces "a/\x7bx,y\x7d/\x7b1,2\x7d" = ["a/x/1", "a/x/2", "a/y/1", "a/y/2"] ∧
    (expandBraces "a/\x7bx,y\x7d/\x7b1,2\x7d").Nodup := by
  constructor
  · rfl
  · decide

/-! ### C7: validation failures throw before any mutation -/

/-- **C7** — Whenever a command's `validate()` returns a non-empty error
list, `execute` throws (with the joined message) before performing any
graph mutation or document write: no successor state is produced, so graph
and vault are left unchanged. -/
theorem execute_rejects_invalid (cfg : CommandProcessorConfig) (now : Nat)
    (g : RelationGraph) (v : Vault) (cmd : RelationCommand)
    (h : cmd.validate ≠ []) :
    execute cfg now g v cmd =
      .error ("Invalid command: " ++ String.intercalate ", " cmd.validate) := by
  simp only [execute]
  rw [if_pos h]

/-- Witness for C7: the self-relation command `add fileA → fileA` fails
validation and `execute` throws, writing nothing. -/
theorem execute_rejects_invalid_witness :
    c7cmd.validate ≠ [] ∧
    execute procCfg 0 RelationGraph.empty [(fileA, "")] c7cmd =
      .error "Invalid command: Cannot create relation to the same file" := by
  constructor
  · decide
  · have h := execute_rejects_invalid procCfg 0 RelationGraph.empty [(fileA, "")] c7cmd
      (by decide)
    rw [h]
    rfl

/-! ### C2: the loop guard suppresses the engine's own echo -/

lemma setAdd_contains_self (s : List String) (k : String) :
    (setAdd s k).contains k = true := by
  unfold setAdd
  by_cases h : s.contains k = true
  · rw [if_pos h]
    exact h
  · rw [if_neg h]
    simp

lemma setDel_contains_self (s : List String) (k : String) :
    (setDel s k).contains k = false := by
  induction s with
  | nil => simp [setDel]
  | cons a t ih =>
    by_cases h : a = k
    · simp [setDel, List.filter_cons, h]
    · simp [setDel, List.filter_cons, h, List.contains_cons, Ne.symm h]

/-- **C2** — If document `A` declares `child B` and the engine writes the
inverse `parent A` into `B` (premises: not cached yet, inverse not already
present), then when `B`'s reparse reports that `parent A` relation as an
addition, the guard finds the canonical key in its cache, removes it
(one-shot consumption), and performs no write at all: the whole frontmatter
store — in particular `A`'s — is byte-identical before and after the second
pass. -/
theorem loopGuard_suppresses_echo
    (parseF : InfState → TFile → Option (List IRel)) (st0 : InfState) (A B : TFile)
    (l1 l2 : String) (i1 i2 : Bool) (hAB : A.path ≠ B.path)
    (hk : st0.cache.contains (getCanonicalKey ⟨A, B, .child, l1, i1⟩) = false)
    (hnx : (match parseF st0 B with
            | some rels =>
              rels.any (fun x => x.target.path == A.path && x.type == RelationType.parent)
            | none => false) = false) :
    (processChanges parseF st0 [⟨A, B, .child, l1, i1⟩] []).cache.contains
        (getCanonicalKey ⟨A, B, .child, l1, i1⟩) = true ∧
    (processChanges parseF (processChanges parseF st0 [⟨A, B, .child, l1, i1⟩] [])
        [⟨B, A, .parent, l2, i2⟩] []).fm =
      (processChanges parseF st0 [⟨A, B, .child, l1, i1⟩] []).fm ∧
    mapGet (processChanges parseF (processChanges parseF st0 [⟨A, B, .child, l1, i1⟩] [])
        [⟨B, A, .parent, l2, i2⟩] []).fm A.path = mapGet st0.fm A.path ∧
    (processChanges parseF (processChanges parseF st0 [⟨A, B, .child, l1, i1⟩] [])
        [⟨B, A, .parent, l2, i2⟩] []).cache.contains
        (getCanonicalKey ⟨A, B, .child, l1, i1⟩) = false := by
  have hkey : getCanonicalKey (⟨B, A, .parent, l2, i2⟩ : IRel) =
      getCanonicalKey (⟨A, B, .child, l1, i1⟩ : IRel) := by
    calc getCanonicalKey (⟨B, A, .parent, l2, i2⟩ : IRel)
        = getCanonicalKey (getInverseRelation (⟨A, B, .child, l1, i1⟩ : IRel)) := rfl
      _ = getCanonicalKey (⟨A, B, .child, l1, i1⟩ : IRel) :=
        (canonicalKey_inverse_eq _).symm
  have hstep1 : processChanges parseF st0 [⟨A, B, .child, l1, i1⟩] [] =
      { cache := setAdd st0.cache (getCanonicalKey ⟨A, B, .child, l1, i1⟩),
        fm := mapSet st0.fm B.path
          (fmAddEntry (fmOf st0 B.path) "parent" ("[[" ++ A.path ++ "]]")) } := by
    show addInverseRelation parseF st0 ⟨A, B, .child, l1, i1⟩ = _
    simp only [addInverseRelation, getInverseRelation, getInverseType, typeName]
    rw [if_neg hAB,
      if_neg (fun he => Bool.noConfusion (hk.symm.trans he)),
      if_neg (fun he => Bool.noConfusion (hnx.symm.trans he))]
  have hstep2 : processChanges parseF (processChanges parseF st0 [⟨A, B, .child, l1, i1⟩] [])
      [⟨B, A, .parent, l2, i2⟩] [] =
      { cache := setDel (setAdd st0.cache (getCanonicalKey ⟨A, B, .child, l1, i1⟩))
          (getCanonicalKey ⟨A, B, .child, l1, i1⟩),
        fm := mapSet st0.fm B.path
          (fmAddEntry (fmOf st0 B.path) "parent" ("[[" ++ A.path ++ "]]")) } := by
    rw [hstep1]
    show addInverseRelation parseF _ ⟨B, A, .parent, l2, i2⟩ = _
    simp only [addInverseRelation]
    rw [if_neg (fun e => hAB e.symm), if_pos (by rw [hkey]; exact setAdd_contains_self _ _),
      hkey]
    rfl
  refine ⟨?_, ?_, ?_, ?_⟩
  · rw [hstep1]
    exact setAdd_contains_self _ _
  · rw [hstep2, hstep1]
  · rw [hstep2]
    show mapGet (mapSet st0.fm B.path _) A.path = mapGet st0.fm A.path
    rw [mapGet_set]
    exact if_neg hAB
  · rw [hstep2]
    exact setDel_contains_self _ _

/-- Witness for C2 at the concrete two-file scenario. -/
theorem loopGuard_suppresses_echo_witness :
    (processChanges c2parse0 ⟨[], []⟩ [c2r1] []).cache.contains (getCanonicalKey c2r1) = true ∧
    (processChanges c2parse0 (processChanges c2parse0 ⟨[], []⟩ [c2r1] []) [c2r2] []).fm =
      (processChanges c2parse0 ⟨[], []⟩ [c2r1] []).fm ∧
    mapGet (processChanges c2parse0 (processChanges c2parse0 ⟨[], []⟩ [c2r1] []) [c2r2] []).fm
      fileA.path = mapGet (⟨[], []⟩ : InfState).fm fileA.path ∧
    (processChanges c2parse0 (processChanges c2parse0 ⟨[], []⟩ [c2r1] []) [c2r2] []).cache.contains
      (getCanonicalKey c2r1) = false :=
  loopGuard_suppresses_echo c2parse0 ⟨[], []⟩ fileA fileB "" "" false false
    (by decide) (by decide) (by decide)

/-! ### C10: `removeShardFromFile` deletes at most the first match -/

lemma eraseIdx_eq_take_drop {α : Type} (l : List α) (i : Nat) :
    l.eraseIdx i = l.take i ++ l.drop (i + 1) := by
  induction l generalizing i with
  | nil => cases i <;> simp [List.eraseIdx]
  | cons a t ih =>
    cases i with
    | zero => simp [List.eraseIdx]
    | succ n => simp [List.eraseIdx, ih]

lemma firstIdxWhere_some_spec {p : String → Bool} {l : List String} {i : Nat}
    (h : firstIdxWhere p l = some i) :
    p (l.getD i "") = true ∧ ∀ j, j < i → p (l.getD j "") = false := by
  induction l generalizing i with
  | nil => simp [firstIdxWhere] at h
  | cons a t ih =>
    by_cases hp : p a
    · rw [show firstIdxWhere p (a :: t) = if p a then some 0 else
          (firstIdxWhere p t).map (· + 1) from rfl, if_pos hp] at h
      injection h with h
      subst h
      exact ⟨by simpa using hp, fun j hj => absurd hj (Nat.not_lt_zero _)⟩
    · rw [show firstIdxWhere p (a :: t) = if p a then some 0 else
          (firstIdxWhere p t).map (· + 1) from rfl, if_neg hp] at h
      cases hft : firstIdxWhere p t with
      | none => rw [hft] at h; simp at h
      | some i' =>
        rw [hft] at h
        simp only [Option.map_some', Option.some.injEq] at h
        subst h
        obtain ⟨h1, h2⟩ := ih hft
        refine ⟨by simpa using h1, ?_⟩
        intro j hj
        cases j with
        | zero => simpa using hp
        | succ j' => simpa using h2 j' (by omega)

lemma jsSplit_ne_nil (sep : Char) (l : List Char) : jsSplit sep l ≠ [] := by
  cases l with
  | nil => simp [jsSplit]
  | cons c cs =>
    cases h : jsSplit sep cs with
    | nil => simp [jsSplit, h]
    | cons x t => by_cases hc : c = sep <;> simp [jsSplit, h, hc]

lemma jsJoin_two (sep : Char) (x y : List Char) (t : List (List Char)) :
    jsJoin sep (x :: y :: t) = x ++ sep :: jsJoin sep (y :: t) := rfl

lemma jsJoin_jsSplit (sep : Char) (l : List Char) : jsJoin sep (jsSplit sep l) = l := by
  induction l with
  | nil => rfl
  | cons c cs ih =>
    cases h : jsSplit sep cs with
    | nil => exact absurd h (jsSplit_ne_nil sep cs)
    | cons x t =>
      rw [h] at ih
      by_cases hc : c = sep
      · rw [show jsSplit sep (c :: cs) = [] :: x :: t from by simp [jsSplit, h, hc]]
        rw [jsJoin_two, List.nil_append, ih, hc]
      · rw [show jsSplit sep (c :: cs) = (c :: x) :: t from by simp [jsSplit, h, hc]]
        cases t with
        | nil =>
          have hx : x = cs := ih
          rw [hx]
          rfl
        | cons y t2 =>
          rw [jsJoin_two] at ih
          rw [jsJoin_two, List.cons_append, ih]

lemma stringMk_data (s : String) : (⟨s.data⟩ : String) = s := rfl

lemma joinLines_splitLines (s : String) : joinLines (splitLines s) = s := by
  unfold joinLines splitLines
  rw [List.map_map]
  have : (String.data ∘ fun l => (⟨l⟩ : String)) = id := by
    funext l
    rfl
  rw [this, List.map_id, jsJoin_jsSplit]

lemma vaultRead_write_self (v : Vault) (f : TFile) (c : String) :
    vaultRead (vaultWrite v f c) f = c := by
  induction v with
  | nil => simp [vaultWrite, vaultRead, List.find?]
  | cons p t ih =>
    by_cases h : p.1.path = f.path
    · simp [vaultWrite, vaultRead, h, List.find?]
    · simp only [vaultWrite, if_neg h]
      simp only [vaultRead, List.find?] at ih ⊢
      rw [show (p.1.path == f.path) = false from by simp [h]]
      exact ih

/-- **C10** — A single `removeShardFromFile` call deletes at most one line
of the target file: the first line whose parsed relation type, resolved
target name and label equal those of the shard being removed (blank lines
are skipped).  All lines before it fail the match, every other line is kept
byte-for-byte (`take i ++ drop (i+1)`), and when no line matches the file
content is unchanged. -/
theorem removeShard_frame (v : Vault) (f : TFile) (shardLine : String) :
    (∀ i, firstIdxWhere (removesLine (parseShard shardLine))
        (splitLines (vaultRead v f)) = some i →
      vaultRead (removeShardFromFile v f shardLine) f =
        joinLines ((splitLines (vaultRead v f)).take i ++
          (splitLines (vaultRead v f)).drop (i + 1)) ∧
      removesLine (parseShard shardLine) ((splitLines (vaultRead v f)).getD i "") = true ∧
      (∀ j, j < i →
        removesLine (parseShard shardLine) ((splitLines (vaultRead v f)).getD j "") = false)) ∧
    (firstIdxWhere (removesLine (parseShard shardLine)) (splitLines (vaultRead v f)) = none →
      vaultRead (removeShardFromFile v f shardLine) f = vaultRead v f) := by
  constructor
  · intro i hi
    obtain ⟨h1, h2⟩ := firstIdxWhere_some_spec hi
    refine ⟨?_, h1, h2⟩
    simp only [removeShardFromFile]
    rw [hi, vaultRead_write_self]
    show joinLines ((splitLines (vaultRead v f)).eraseIdx i) = _
    rw [eraseIdx_eq_take_drop]
  · intro hn
    simp only [removeShardFromFile]
    rw [hn, vaultRead_write_self]
    show joinLines (splitLines (vaultRead v f)) = _
    rw [joinLines_splitLines]

/-- Witness for C10: removing `> B` from `x / > B / > B / rest` deletes
exactly the first matching line; removing `< C` (no match) changes
nothing. -/
theorem removeShard_frame_witness :
    vaultRead (removeShardFromFile c10vault fileA "> B") fileA = "x\n> B\nrest" ∧
    vaultRead (removeShardFromFile c10vault fileA "< C") fileA = vaultRead c10vault fileA := by
  constructor
  · have h := (removeShard_frame c10vault fileA "> B").1 1 (by rfl)
    exact h.1.trans (by rfl)
  · exact (removeShard_frame c10vault fileA "< C").2 (by rfl)

/-! ### C3: the conflict-repair pass of `rebuildGraph` throws -/

/-- **C3** (code-bug exhibit) — On the two-file vault `c3vault` the rebuilt
graph reports inverse-mismatch conflicts, and for every reported pair
`resolveConflict`'s call `relation1.merge(relation2, …)` throws
`Cannot merge relations with different identities` (the pair's identities
are mutually inverse, never equal), so `rebuildGraph` rejects instead of
completing the repair pass. -/
theorem rebuildGraph_repair_throws :
    c3buildGraph.findConflicts ≠ [] ∧
    (∀ pr ∈ c3buildGraph.findConflicts,
      pr.1.merge pr.2 procCfg.conflictStrategy 7 =
        .error "Cannot merge relations with different identities") ∧
    rebuildGraph procCfg 7 c3vault =
      .error "Cannot merge relations with different identities" := by
  refine ⟨by decide, by decide, by decide⟩

/-! ### C1: the mirror invariant — counterexample as stated -/

/-- **C1** counterexample — Starting from the empty graph, the two sync
commands `c1cmd1` and `c1cmd2` (both pass validation, bidirectional sync is
enabled, both executions succeed) leave the graph holding the relation
stored under `A.md|A.md|parent` whose inverse identity key
`A.md|A.md|child` has no entry: the mirror invariant is violated after a
successful Sync, so the claim as stated is false. -/
theorem mirror_invariant_counterexample :
    exceptIsOk c1step1 = true ∧ exceptIsOk c1step2 = true ∧
    (mapGet c1finalGraph.relations "A.md|A.md|parent").isSome = true ∧
    (mapGet c1finalGraph.relations "A.md|A.md|parent").map
      (fun r => r.identity.getInverse.key) = some "A.md|A.md|child" ∧
    (mapGet c1finalGraph.relations "A.md|A.md|child").isNone = true ∧
    ¬ MirrorG c1finalGraph := by
  refine ⟨by decide, by decide, by decide, by decide, by decide, ?_⟩
  unfold MirrorG
  decide

/-! ### Set/map membership lemmas and graph-operation characterizations -/

lemma contains_iff_mem (s : List String) (k : String) : s.contains k = true ↔ k ∈ s :=
  List.elem_iff

lemma mem_setAdd {s : List String} {x k : String} (h : k ∈ setAdd s x) : k = x ∨ k ∈ s := by
  unfold setAdd at h
  split at h
  · exact Or.inr h
  · rcases List.mem_append.mp h with h | h
    · exact Or.inr h
    · exact Or.inl (by simpa using h)

lemma setAdd_mem_self (s : List String) (x : String) : x ∈ setAdd s x := by
  unfold setAdd
  split
  · next h => exact (contains_iff_mem s x).mp h
  · exact List.mem_append_right _ (List.mem_singleton.mpr rfl)

lemma mem_setAdd_of_mem {s : List String} {k : String} (x : String) (h : k ∈ s) :
    k ∈ setAdd s x := by
  unfold setAdd
  split
  · exact h
  · exact List.mem_append_left _ h

lemma mem_setDel {s : List String} {x k : String} : k ∈ setDel s x ↔ k ∈ s ∧ k ≠ x := by
  simp [setDel, List.mem_filter]

lemma setAdd_nodup {s : List String} (x : String) (h : s.Nodup) : (setAdd s x).Nodup := by
  unfold setAdd
  split
  · exact h
  · next hc =>
    refine List.Nodup.append h (List.nodup_singleton x) ?_
    intro a ha hx
    rw [List.mem_singleton] at hx
    subst hx
    exact hc ((contains_iff_mem s a).mpr ha)

lemma setDel_nodup {s : List String} (x : String) (h : s.Nodup) : (setDel s x).Nodup :=
  h.filter _

lemma mapGet_eq_of_mem_nodup {α : Type} {m : List (String × α)}
    (hnd : (m.map Prod.fst).Nodup) {k : String} {v : α} (h : (k, v) ∈ m) :
    mapGet m k = some v := by
  induction m with
  | nil => simp at h
  | cons p t ih =>
    rw [mapGet_cons]
    rcases List.mem_cons.mp h with h | h
    · rw [← h]
      simp
    · have hk : k ∈ t.map Prod.fst := List.mem_map.mpr ⟨(k, v), h, rfl⟩
      have hp : p.1 ≠ k := by
        intro e
        rw [List.map_cons, List.nodup_cons] at hnd
        exact hnd.1 (e ▸ hk)
      rw [if_neg hp]
      exact ih (by rw [List.map_cons, List.nodup_cons] at hnd; exact hnd.2) h

lemma mem_mapSet {α : Type} {m : List (String × α)} {k : String} {v : α} {p : String × α}
    (h : p ∈ mapSet m k v) : p = (k, v) ∨ p ∈ m := by
  induction m with
  | nil => simpa [mapSet] using h
  | cons q t ih =>
    unfold mapSet at h
    split at h
    · rcases List.mem_cons.mp h with h | h
      · exact Or.inl h
      · exact Or.inr (List.mem_cons_of_mem _ h)
    · rcases List.mem_cons.mp h with h | h
      · exact Or.inr (h ▸ List.mem_cons_self _ _)
      · rcases ih h with h | h
        · exact Or.inl h
        · exact Or.inr (List.mem_cons_of_mem _ h)

lemma mapSet_keys_mem {α : Type} {m : List (String × α)} {k : String} {v : α} {x : String}
    (h : x ∈ (mapSet m k v).map Prod.fst) : x = k ∨ x ∈ m.map Prod.fst := by
  rcases List.mem_map.mp h with ⟨p, hp, he⟩
  rcases mem_mapSet hp with h1 | h1
  · left
    rw [← he, h1]
  · right
    exact List.mem_map.mpr ⟨p, h1, he⟩

lemma mapSet_keys_nodup {α : Type} {m : List (String × α)} (k : String) (v : α)
    (h : (m.map Prod.fst).Nodup) : ((mapSet m k v).map Prod.fst).Nodup := by
  induction m with
  | nil => simp [mapSet]
  | cons p t ih =>
    rw [List.map_cons, List.nodup_cons] at h
    unfold mapSet
    split
    · next he =>
      rw [List.map_cons, List.nodup_cons]
      exact ⟨by rw [← he]; exact h.1, h.2⟩
    · next hne =>
      rw [List.map_cons, List.nodup_cons]
      refine ⟨?_, ih h.2⟩
      intro hx
      rcases mapSet_keys_mem hx with hx | hx
      · exact hne hx
      · exact h.1 hx

lemma mapSet_keys_of_present {α : Type} {m : List (String × α)} {k : String}
    (h : (mapGet m k).isSome = true) (v : α) :
    (mapSet m k v).map Prod.fst = m.map Prod.fst := by
  induction m with
  | nil => simp [mapGet_nil] at h
  | cons p t ih =>
    unfold mapSet
    split
    · next he => simp [he]
    · next hne =>
      rw [mapGet_cons, if_neg hne] at h
      simp [ih h]

lemma mapDelete_of_absent {α : Type} {m : List (String × α)} {k : String}
    (h : mapGet m k = none) : mapDelete m k = m := by
  induction m with
  | nil => rfl
  | cons p t ih =>
    rw [mapGet_cons] at h
    by_cases hp : p.1 = k
    · simp [hp] at h
    · rw [if_neg hp] at h
      simp only [mapDelete, List.filter_cons]
      rw [show (!(p.1 == k)) = true from by simp [hp], if_pos rfl]
      simp only [mapDelete] at ih
      rw [ih h]

lemma mapDelete_keys {α : Type} (m : List (String × α)) (k : String) :
    (mapDelete m k).map Prod.fst = (m.map Prod.fst).filter (fun x => !(x == k)) := by
  induction m with
  | nil => rfl
  | cons p t ih =>
    simp only [mapDelete, List.filter_cons] at ih ⊢
    by_cases hp : p.1 = k
    · simp [hp, ih]
    · simp [hp, ih, show (!(p.1 == k)) = true from by simp [hp]]

lemma mapDelete_keys_nodup {α : Type} {m : List (String × α)} (k : String)
    (h : (m.map Prod.fst).Nodup) : ((mapDelete m k).map Prod.fst).Nodup := by
  rw [mapDelete_keys]
  exact h.filter _

lemma addRelation_relations (g : RelationGraph) (r : Relation) :
    (g.addRelation r).relations = mapSet g.relations r.identity.key r := by
  cases h : mapGet g.relations r.identity.key <;>
    simp [RelationGraph.addRelation, addToIndexes, removeFromIndexes, h]

lemma removeRelation_relations (g : RelationGraph) (i : RelationIdentity) :
    (g.removeRelation i).relations = mapDelete g.relations i.key := by
  cases h : mapGet g.relations i.key with
  | some rel => simp [RelationGraph.removeRelation, removeFromIndexes, h]
  | none =>
    simp [RelationGraph.removeRelation, h]
    exact (mapDelete_of_absent h).symm

lemma get_addRelation (g : RelationGraph) (r : Relation) (k : String) :
    mapGet (g.addRelation r).relations k =
      if k = r.identity.key then some r else mapGet g.relations k := by
  rw [addRelation_relations, mapGet_set]

lemma get_removeRelation (g : RelationGraph) (i : RelationIdentity) (k : String) :
    mapGet (g.removeRelation i).relations k =
      if k = i.key then none else mapGet g.relations k := by
  rw [removeRelation_relations, mapGet_delete]

lemma bucketGet_bucketAdd (m : List (String × List String)) (p k q : String) :
    bucketGet (bucketAdd m p k) q =
      if q = p then setAdd (bucketGet m p) k else bucketGet m q := by
  unfold bucketGet
  cases h : mapGet m p with
  | some s =>
    have hb : bucketAdd m p k = mapSet m p (setAdd s k) := by
      unfold bucketAdd
      rw [h]
    rw [hb, mapGet_set]
    split <;> rfl
  | none =>
    have hb : bucketAdd m p k = mapSet m p [k] := by
      unfold bucketAdd
      rw [h]
    rw [hb, mapGet_set]
    split <;> rfl

lemma bucketGet_bucketDel (m : List (String × List String)) (p k q : String) :
    bucketGet (bucketDel m p k) q =
      if q = p then setDel (bucketGet m p) k else bucketGet m q := by
  unfold bucketGet
  cases h : mapGet m p with
  | none =>
    have hb : bucketDel m p k = m := by
      unfold bucketDel
      rw [h]
    rw [hb]
    split
    · next he => subst he; rw [h]; rfl
    · rfl
  | some s =>
    have hb : bucketDel m p k =
        if setDel s k = [] then mapDelete m p else mapSet m p (setDel s k) := by
      unfold bucketDel
      rw [h]
    rw [hb]
    by_cases hs : setDel s k = []
    · rw [if_pos hs, mapGet_delete]
      split
      · exact hs.symm
      · rfl
    · rw [if_neg hs, mapGet_set]
      split <;> rfl

/-! ### Index characterizations of `addRelation` / `removeRelation` -/

lemma addRelation_idx_none (g : RelationGraph) (r : Relation)
    (h : mapGet g.relations r.identity.key = none) :
    (g.addRelation r).bySource =
      bucketAdd g.bySource r.identity.sourceFile.path r.identity.key ∧
    (g.addRelation r).byTarget =
      bucketAdd g.byTarget r.identity.targetFile.path r.identity.key := by
  constructor <;> simp [RelationGraph.addRelation, h, addToIndexes]

lemma addRelation_idx_some (g : RelationGraph) (r ex : Relation)
    (h : mapGet g.relations r.identity.key = some ex) :
    (g.addRelation r).bySource =
      bucketAdd (bucketDel g.bySource ex.identity.sourceFile.path ex.identity.key)
        r.identity.sourceFile.path r.identity.key ∧
    (g.addRelation r).byTarget =
      bucketAdd (bucketDel g.byTarget ex.identity.targetFile.path ex.identity.key)
        r.identity.targetFile.path r.identity.key := by
  constructor <;> simp [RelationGraph.addRelation, h, addToIndexes, removeFromIndexes]

lemma removeRelation_idx_some (g : RelationGraph) (i : RelationIdentity) (rel : Relation)
    (h : mapGet g.relations i.key = some rel) :
    (g.removeRelation i).bySource =
      bucketDel g.bySource rel.identity.sourceFile.path rel.identity.key ∧
    (g.removeRelation i).byTarget =
      bucketDel g.byTarget rel.identity.targetFile.path rel.identity.key := by
  constructor <;> simp [RelationGraph.removeRelation, h, removeFromIndexes]

lemma removeRelation_of_absent (g : RelationGraph) (i : RelationIdentity)
    (h : mapGet g.relations i.key = none) : g.removeRelation i = g := by
  simp [RelationGraph.removeRelation, h]

/-! ### One-index-side preservation lemmas -/

lemma sound_side_del (rels : List (String × Relation)) (m : List (String × List String))
    (f : Relation → String) (key : String) (ex : Relation)
    (hsound : ∀ q k, k ∈ bucketGet m q → (mapGet rels k).map f = some q)
    (hex : mapGet rels key = some ex) (q k : String)
    (hk : k ∈ bucketGet (bucketDel m (f ex) key) q) :
    k ≠ key ∧ (mapGet rels k).map f = some q := by
  rw [bucketGet_bucketDel] at hk
  by_cases hq : q = f ex
  · rw [if_pos hq] at hk
    obtain ⟨hmem, hne⟩ := mem_setDel.mp hk
    rw [← hq] at hmem
    exact ⟨hne, hsound q k hmem⟩
  · rw [if_neg hq] at hk
    refine ⟨?_, hsound q k hk⟩
    intro e
    subst e
    have h2 := hsound q k hk
    rw [hex] at h2
    simp only [Option.map_some', Option.some.injEq] at h2
    exact hq h2.symm

lemma sound_side_add_none (rels : List (String × Relation)) (m : List (String × List String))
    (f : Relation → String) (r : Relation) (key : String)
    (hsound : ∀ q k, k ∈ bucketGet m q → (mapGet rels k).map f = some q)
    (hnone : mapGet rels key = none) (q k : String)
    (hk : k ∈ bucketGet (bucketAdd m (f r) key) q) :
    (mapGet (mapSet rels key r) k).map f = some q := by
  rw [bucketGet_bucketAdd] at hk
  rw [mapGet_set]
  by_cases hq : q = f r
  · rw [if_pos hq] at hk
    rcases mem_setAdd hk with hkk | hkk
    · rw [if_pos hkk]
      simp [hq]
    · rw [← hq] at hkk
      have hne : k ≠ key := by
        intro e
        subst e
        have h2 := hsound q k hkk
        rw [hnone] at h2
        simp at h2
      rw [if_neg hne]
      exact hsound q k hkk
  · rw [if_neg hq] at hk
    have hne : k ≠ key := by
      intro e
      subst e
      have h2 := hsound q k hk
      rw [hnone] at h2
      simp at h2
    rw [if_neg hne]
    exact hsound q k hk

lemma sound_side_add_some (rels : List (String × Relation)) (m : List (String × List String))
    (f : Relation → String) (r ex : Relation) (key : String)
    (hsound : ∀ q k, k ∈ bucketGet m q → (mapGet rels k).map f = some q)
    (hex : mapGet rels key = some ex) (q k : String)
    (hk : k ∈ bucketGet (bucketAdd (bucketDel m (f ex) key) (f r) key) q) :
    (mapGet (mapSet rels key r) k).map f = some q := by
  rw [bucketGet_bucketAdd] at hk
  rw [mapGet_set]
  by_cases hq : q = f r
  · rw [if_pos hq] at hk
    rcases mem_setAdd hk with hkk | hkk
    · rw [if_pos hkk]
      simp [hq]
    · rw [← hq] at hkk
      obtain ⟨hne, hs⟩ := sound_side_del rels m f key ex hsound hex q k hkk
      rw [if_neg hne]
      exact hs
  · rw [if_neg hq] at hk
    obtain ⟨hne, hs⟩ := sound_side_del rels m f key ex hsound hex q k hk
    rw [if_neg hne]
    exact hs

lemma complete_side_keep_del {m : List (String × List String)} {q k : String} (p0 key : String)
    (hm : k ∈ bucketGet m q) (hne : k ≠ key) : k ∈ bucketGet (bucketDel m p0 key) q := by
  rw [bucketGet_bucketDel]
  by_cases hq : q = p0
  · rw [if_pos hq, ← hq]
    exact mem_setDel.mpr ⟨hm, hne⟩
  · rw [if_neg hq]
    exact hm

lemma complete_side_keep_add {m : List (String × List String)} {q k : String} (p0 key : String)
    (hm : k ∈ bucketGet m q) : k ∈ bucketGet (bucketAdd m p0 key) q := by
  rw [bucketGet_bucketAdd]
  by_cases hq : q = p0
  · rw [if_pos hq, ← hq]
    exact mem_setAdd_of_mem _ hm
  · rw [if_neg hq]
    exact hm

lemma complete_side_self (m : List (String × List String)) (p0 key : String) :
    key ∈ bucketGet (bucketAdd m p0 key) p0 := by
  rw [bucketGet_bucketAdd, if_pos rfl]
  exact setAdd_mem_self _ _

lemma nodup_bucketAdd {m : List (String × List String)} (p0 key : String)
    (h : ∀ q, (bucketGet m q).Nodup) : ∀ q, (bucketGet (bucketAdd m p0 key) q).Nodup := by
  intro q
  rw [bucketGet_bucketAdd]
  split
  · exact setAdd_nodup _ (h _)
  · exact h q

lemma nodup_bucketDel {m : List (String × List String)} (p0 key : String)
    (h : ∀ q, (bucketGet m q).Nodup) : ∀ q, (bucketGet (bucketDel m p0 key) q).Nodup := by
  intro q
  rw [bucketGet_bucketDel]
  split
  · exact setDel_nodup _ (h _)
  · exact h q

/-! ### Preservation of the structural invariants -/

lemma keyed_addRelation (g : RelationGraph) (r : Relation) (hK : KeyedOk g) :
    KeyedOk (g.addRelation r) := by
  intro k rel hkrel
  rw [get_addRelation] at hkrel
  by_cases hk : k = r.identity.key
  · rw [if_pos hk] at hkrel
    injection hkrel with h2
    rw [← h2, hk]
  · rw [if_neg hk] at hkrel
    exact hK k rel hkrel

lemma keyed_removeRelation (g : RelationGraph) (i : RelationIdentity) (hK : KeyedOk g) :
    KeyedOk (g.removeRelation i) := by
  intro k rel hkrel
  rw [get_removeRelation] at hkrel
  by_cases hk : k = i.key
  · rw [if_pos hk] at hkrel
    exact absurd hkrel (by simp)
  · rw [if_neg hk] at hkrel
    exact hK k rel hkrel

lemma clean_addRelation (g : RelationGraph) (r : Relation) (hc : CleanRels g)
    (hr : relClean r = true) : CleanRels (g.addRelation r) := by
  intro k rel h
  rw [get_addRelation] at h
  by_cases hk : k = r.identity.key
  · rw [if_pos hk] at h
    injection h with h
    rw [← h]
    exact hr
  · rw [if_neg hk] at h
    exact hc k rel h

lemma clean_removeRelation (g : RelationGraph) (i : RelationIdentity) (hc : CleanRels g) :
    CleanRels (g.removeRelation i) := by
  intro k rel h
  rw [get_removeRelation] at h
  by_cases hk : k = i.key
  · rw [if_pos hk] at h
    exact absurd h (by simp)
  · rw [if_neg hk] at h
    exact hc k rel h

lemma wf_addRelation (g : RelationGraph) (r : Relation) (hK : KeyedOk g) (hwf : wfG g) :
    wfG (g.addRelation r) := by
  unfold wfG IdxSound BucketsNodup at hwf ⊢
  obtain ⟨hnd, ⟨hsS, hsT⟩, hC, hbS, hbT⟩ := hwf
  cases h : mapGet g.relations r.identity.key with
  | none =>
    obtain ⟨hiS, hiT⟩ := addRelation_idx_none g r h
    refine ⟨?_, ⟨?_, ?_⟩, ?_, ?_, ?_⟩
    · show ((g.addRelation r).relations.map Prod.fst).Nodup
      rw [addRelation_relations]
      exact mapSet_keys_nodup _ _ hnd
    · intro q k hk
      rw [hiS] at hk
      rw [addRelation_relations]
      exact sound_side_add_none _ _ _ r _ hsS h q k hk
    · intro q k hk
      rw [hiT] at hk
      rw [addRelation_relations]
      exact sound_side_add_none _ _ _ r _ hsT h q k hk
    · intro k rel hkrel
      rw [get_addRelation] at hkrel
      rw [hiS, hiT]
      by_cases hkk : k = r.identity.key
      · rw [if_pos hkk] at hkrel
        injection hkrel with h2
        subst h2
        subst hkk
        exact ⟨complete_side_self _ _ _, complete_side_self _ _ _⟩
      · rw [if_neg hkk] at hkrel
        obtain ⟨hc1, hc2⟩ := hC k rel hkrel
        exact ⟨complete_side_keep_add _ _ hc1, complete_side_keep_add _ _ hc2⟩
    · intro q
      rw [hiS]
      exact nodup_bucketAdd _ _ hbS q
    · intro q
      rw [hiT]
      exact nodup_bucketAdd _ _ hbT q
  | some ex =>
    have hexkey : ex.identity.key = r.identity.key := hK _ _ h
    obtain ⟨hiS, hiT⟩ := addRelation_idx_some g r ex h
    rw [hexkey] at hiS hiT
    refine ⟨?_, ⟨?_, ?_⟩, ?_, ?_, ?_⟩
    · show ((g.addRelation r).relations.map Prod.fst).Nodup
      rw [addRelation_relations]
      exact mapSet_keys_nodup _ _ hnd
    · intro q k hk
      rw [hiS] at hk
      rw [addRelation_relations]
      exact sound_side_add_some _ _ _ r ex _ hsS h q k hk
    · intro q k hk
      rw [hiT] at hk
      rw [addRelation_relations]
      exact sound_side_add_some _ _ _ r ex _ hsT h q k hk
    · intro k rel hkrel
      rw [get_addRelation] at hkrel
      rw [hiS, hiT]
      by_cases hkk : k = r.identity.key
      · rw [if_pos hkk] at hkrel
        injection hkrel with h2
        subst h2
        subst hkk
        exact ⟨complete_side_self _ _ _, complete_side_self _ _ _⟩
      · rw [if_neg hkk] at hkrel
        obtain ⟨hc1, hc2⟩ := hC k rel hkrel
        exact ⟨complete_side_keep_add _ _ (complete_side_keep_del _ _ hc1 hkk),
          complete_side_keep_add _ _ (complete_side_keep_del _ _ hc2 hkk)⟩
    · intro q
      rw [hiS]
      exact nodup_bucketAdd _ _ (nodup_bucketDel _ _ hbS) q
    · intro q
      rw [hiT]
      exact nodup_bucketAdd _ _ (nodup_bucketDel _ _ hbT) q

lemma wf_removeRelation (g : RelationGraph) (i : RelationIdentity) (hK : KeyedOk g)
    (hwf : wfG g) : wfG (g.removeRelation i) := by
  unfold wfG IdxSound BucketsNodup at hwf ⊢
  obtain ⟨hnd, ⟨hsS, hsT⟩, hC, hbS, hbT⟩ := hwf
  cases h : mapGet g.relations i.key with
  | none => rw [removeRelation_of_absent g i h]; exact ⟨hnd, ⟨hsS, hsT⟩, hC, hbS, hbT⟩
  | some rel =>
    have hexkey : rel.identity.key = i.key := hK _ _ h
    obtain ⟨hiS, hiT⟩ := removeRelation_idx_some g i rel h
    rw [hexkey] at hiS hiT
    refine ⟨?_, ⟨?_, ?_⟩, ?_, ?_, ?_⟩
    · show ((g.removeRelation i).relations.map Prod.fst).Nodup
      rw [removeRelation_relations]
      exact mapDelete_keys_nodup _ hnd
    · intro q k hk
      rw [hiS] at hk
      rw [removeRelation_relations]
      have hrw : bucketDel g.bySource rel.identity.sourceFile.path i.key =
          bucketDel g.bySource ((fun x => x.identity.sourceFile.path) rel) i.key := rfl
      obtain ⟨hne, hs⟩ := sound_side_del g.relations g.bySource
        (fun x => x.identity.sourceFile.path) i.key rel hsS h q k (hrw ▸ hk)
      rw [mapGet_delete, if_neg hne]
      exact hs
    · intro q k hk
      rw [hiT] at hk
      rw [removeRelation_relations]
      have hrw : bucketDel g.byTarget rel.identity.targetFile.path i.key =
          bucketDel g.byTarget ((fun x => x.identity.targetFile.path) rel) i.key := rfl
      obtain ⟨hne, hs⟩ := sound_side_del g.relations g.byTarget
        (fun x => x.identity.targetFile.path) i.key rel hsT h q k (hrw ▸ hk)
      rw [mapGet_delete, if_neg hne]
      exact hs
    · intro k rel' hkrel
      rw [removeRelation_relations, mapGet_delete] at hkrel
      by_cases hkk : k = i.key
      · rw [if_pos hkk] at hkrel
        exact absurd hkrel (by simp)
      · rw [if_neg hkk] at hkrel
        obtain ⟨hc1, hc2⟩ := hC k rel' hkrel
        rw [hiS, hiT]
        exact ⟨complete_side_keep_del _ _ hc1 hkk, complete_side_keep_del _ _ hc2 hkk⟩
    · intro q
      rw [hiS]
      exact nodup_bucketDel _ _ hbS q
    · intro q
      rw [hiT]
      exact nodup_bucketDel _ _ hbT q

/-! ### Key injectivity (pipe-free paths) and clean-relation facts -/

lemma string_data_append (a b : String) : (a ++ b).data = a.data ++ b.data := rfl

lemma string_data_inj {a b : String} (h : a.data = b.data) : a = b := by
  cases a
  cases b
  exact congrArg String.mk (by simpa using h)

lemma splitChar_inj {x : Char} : ∀ {a1 a2 b1 b2 : List Char}, x ∉ a1 → x ∉ a2 →
    a1 ++ x :: b1 = a2 ++ x :: b2 → a1 = a2 ∧ b1 = b2 := by
  intro a1
  induction a1 with
  | nil =>
    intro a2 b1 b2 _ h2 he
    cases a2 with
    | nil => simpa using he
    | cons c t =>
      simp only [List.nil_append, List.cons_append, List.cons.injEq] at he
      exact absurd (by rw [← he.1]; exact List.mem_cons_self x t : x ∈ c :: t) h2
  | cons c t ih =>
    intro a2 b1 b2 h1 h2 he
    cases a2 with
    | nil =>
      simp only [List.nil_append, List.cons_append, List.cons.injEq] at he
      exact absurd (by rw [he.1]; exact List.mem_cons_self x t : x ∈ c :: t) h1
    | cons c2 t2 =>
      simp only [List.cons_append, List.cons.injEq] at he
      obtain ⟨hc, ht⟩ := he
      have hr := ih (fun hm => h1 (List.mem_cons_of_mem c hm))
        (fun hm => h2 (List.mem_cons_of_mem c2 hm)) ht
      exact ⟨by rw [hc, hr.1], hr.2⟩

lemma pipe_not_in_typeName (ty : RelationType) : '|' ∉ (typeName ty).data := by
  cases ty <;> decide

lemma typeName_inj {t1 t2 : RelationType} (h : typeName t1 = typeName t2) : t1 = t2 := by
  cases t1 <;> cases t2 <;> first | rfl | (exfalso; exact absurd h (by decide))

lemma key_data (i : RelationIdentity) :
    i.key.data = i.sourceFile.path.data ++ '|' ::
      (i.targetFile.path.data ++ '|' :: (typeName i.type).data) := by
  show (i.sourceFile.path ++ "|" ++ i.targetFile.path ++ "|" ++ typeName i.type).data = _
  simp only [string_data_append, List.append_assoc]
  rfl

lemma key_inj {i1 i2 : RelationIdentity}
    (h1s : '|' ∉ i1.sourceFile.path.data) (h1t : '|' ∉ i1.targetFile.path.data)
    (h2s : '|' ∉ i2.sourceFile.path.data) (h2t : '|' ∉ i2.targetFile.path.data)
    (he : i1.key = i2.key) :
    i1.sourceFile.path = i2.sourceFile.path ∧ i1.targetFile.path = i2.targetFile.path ∧
    i1.type = i2.type := by
  have hd : i1.key.data = i2.key.data := by rw [he]
  rw [key_data, key_data] at hd
  obtain ⟨hs, hrest⟩ := splitChar_inj h1s h2s hd
  obtain ⟨ht, hty⟩ := splitChar_inj h1t h2t hrest
  exact ⟨string_data_inj hs, string_data_inj ht,
    typeName_inj (string_data_inj hty)⟩

lemma getInverseType_invol (ty : RelationType) : getInverseType (getInverseType ty) = ty := by
  cases ty <;> rfl

lemma identity_inv_invol (i : RelationIdentity) : i.getInverse.getInverse = i := by
  obtain ⟨a, b, ty⟩ := i
  cases ty <;> rfl

lemma relClean_spec {r : Relation} (h : relClean r = true) :
    '|' ∉ r.identity.sourceFile.path.data ∧ '|' ∉ r.identity.targetFile.path.data ∧
    r.identity.sourceFile.path ≠ r.identity.targetFile.path := by
  unfold relClean fileClean at h
  simp only [Bool.and_eq_true, Bool.not_eq_true', bne_iff_ne, ne_eq] at h
  refine ⟨?_, ?_, h.2⟩
  · intro hm
    exact Bool.noConfusion (h.1.1.symm.trans (List.elem_iff.mpr hm))
  · intro hm
    exact Bool.noConfusion (h.1.2.symm.trans (List.elem_iff.mpr hm))

lemma relClean_eq_idClean (r : Relation) : relClean r = idClean r.identity := rfl

lemma idClean_spec {i : RelationIdentity} (h : idClean i = true) :
    '|' ∉ i.sourceFile.path.data ∧ '|' ∉ i.targetFile.path.data ∧
    i.sourceFile.path ≠ i.targetFile.path := by
  unfold idClean fileClean at h
  simp only [Bool.and_eq_true, Bool.not_eq_true', bne_iff_ne, ne_eq] at h
  refine ⟨?_, ?_, h.2⟩
  · intro hm
    exact Bool.noConfusion (h.1.1.symm.trans (List.elem_iff.mpr hm))
  · intro hm
    exact Bool.noConfusion (h.1.2.symm.trans (List.elem_iff.mpr hm))

lemma idClean_getInverse {i : RelationIdentity} (h : idClean i = true) :
    idClean i.getInverse = true := by
  unfold idClean RelationIdentity.getInverse at *
  simp only [Bool.and_eq_true, Bool.not_eq_true', bne_iff_ne, ne_eq] at h ⊢
  exact ⟨⟨h.1.2, h.1.1⟩, fun he => h.2 he.symm⟩

lemma relClean_of_identity_eq {r1 r2 : Relation} (h : r1.identity = r2.identity) :
    relClean r1 = relClean r2 := by
  rw [relClean_eq_idClean, relClean_eq_idClean, h]

lemma relClean_getInverse {r : Relation} (h : relClean r = true) :
    relClean r.getInverse = true := by
  rw [relClean_eq_idClean] at h ⊢
  exact idClean_getInverse h

lemma key_congr {i1 i2 : RelationIdentity}
    (hs : i1.sourceFile.path = i2.sourceFile.path)
    (ht : i1.targetFile.path = i2.targetFile.path) (hty : i1.type = i2.type) :
    i1.key = i2.key := by
  unfold RelationIdentity.key
  rw [hs, ht, hty]

lemma key_inj_clean {i1 i2 : RelationIdentity} (h1 : idClean i1 = true)
    (h2 : idClean i2 = true) (he : i1.key = i2.key) :
    i1.sourceFile.path = i2.sourceFile.path ∧ i1.targetFile.path = i2.targetFile.path ∧
    i1.type = i2.type :=
  key_inj (idClean_spec h1).1 (idClean_spec h1).2.1 (idClean_spec h2).1
    (idClean_spec h2).2.1 he

lemma invKey_congr {i1 i2 : RelationIdentity} (h1 : idClean i1 = true)
    (h2 : idClean i2 = true) (he : i1.key = i2.key) :
    i1.getInverse.key = i2.getInverse.key := by
  obtain ⟨hs, ht, hty⟩ := key_inj_clean h1 h2 he
  exact @key_congr i1.getInverse i2.getInverse ht hs (congrArg getInverseType hty)

lemma inv_key_ne {i : RelationIdentity} (h : idClean i = true) :
    i.getInverse.key ≠ i.key := by
  intro he
  obtain ⟨hs, _, _⟩ := key_inj_clean (idClean_getInverse h) h he
  exact (idClean_spec h).2.2 hs.symm

/-! ### Occupancy of identity keys under graph operations -/

lemma occ_add_iff (g : RelationGraph) (r : Relation) (k : String) :
    (mapGet (g.addRelation r).relations k).isSome = true ↔
      k = r.identity.key ∨ (mapGet g.relations k).isSome = true := by
  rw [get_addRelation]
  by_cases h : k = r.identity.key
  · simp [h]
  · simp [h]

lemma occ_remove_iff (g : RelationGraph) (i : RelationIdentity) (k : String) :
    (mapGet (g.removeRelation i).relations k).isSome = true ↔
      k ≠ i.key ∧ (mapGet g.relations k).isSome = true := by
  rw [get_removeRelation]
  by_cases h : k = i.key
  · simp [h]
  · simp [h]

/-! ### Bridging the key-level and label-level mirror properties -/

lemma keyMirror_of_mirrorG {g : RelationGraph} (hm : MirrorG g) : keyMirror g := by
  intro k rel hget
  have hb := hm (k, rel) (mapGet_some_mem hget)
  unfold mirrorForB at hb
  cases hx : mapGet g.relations rel.identity.getInverse.key with
  | none => rw [hx] at hb; simp at hb
  | some x => simp [hx]

lemma mirrorG_of_keyMirror {g : RelationGraph} (hK : KeyedOk g) (hcl : CleanRels g)
    (hnd : KeysNodup g) (hm : keyMirror g) : MirrorG g := by
  intro p hp
  have hget : mapGet g.relations p.1 = some p.2 :=
    mapGet_eq_of_mem_nodup hnd (by simpa using hp)
  have hsome := hm p.1 p.2 hget
  obtain ⟨x, hx⟩ := Option.isSome_iff_exists.mp hsome
  have hxk := hK _ _ hx
  have hclp : idClean p.2.identity = true := by
    rw [← relClean_eq_idClean]; exact hcl _ _ hget
  have hclx : idClean x.identity = true := by
    rw [← relClean_eq_idClean]; exact hcl _ _ hx
  obtain ⟨hs, ht, hty⟩ := key_inj_clean hclx (idClean_getInverse hclp) hxk
  have hs' : x.identity.sourceFile.path = p.2.identity.targetFile.path := hs
  have ht' : x.identity.targetFile.path = p.2.identity.sourceFile.path := ht
  have hty' : x.identity.type = getInverseType p.2.identity.type := hty
  unfold mirrorForB
  rw [hx]
  simp only [Option.map_some', Option.getD_some, Bool.and_eq_true, beq_iff_eq,
    Bool.or_eq_true]
  refine ⟨⟨⟨hs', ht'⟩, hty'⟩, ?_⟩
  by_cases h1 : labelVal x.sourceLabel = labelVal p.2.getInverse.sourceLabel
  · by_cases h2 : labelVal x.targetLabel = labelVal p.2.getInverse.targetLabel
    · exact Or.inl ⟨by simp [h1], by simp [h2]⟩
    · exact Or.inr (by simp [inverseMismatch, h2])
  · exact Or.inr (by simp [inverseMismatch, h1])

/-! ### The empty graph satisfies every invariant -/

lemma keyed_empty : KeyedOk RelationGraph.empty := by
  intro k rel h
  simp [RelationGraph.empty, mapGet_nil] at h

lemma clean_empty : CleanRels RelationGraph.empty := by
  intro k rel h
  simp [RelationGraph.empty, mapGet_nil] at h

lemma wf_empty : wfG RelationGraph.empty := by
  refine ⟨?_, ⟨?_, ?_⟩, ?_, ?_, ?_⟩
  · simp [KeysNodup, RelationGraph.empty]
  · intro q k hk
    simp [RelationGraph.empty, bucketGet, mapGet_nil] at hk
  · intro q k hk
    simp [RelationGraph.empty, bucketGet, mapGet_nil] at hk
  · intro k rel h
    simp [RelationGraph.empty, mapGet_nil] at h
  · intro q
    simp [RelationGraph.empty, bucketGet, mapGet_nil]
  · intro q
    simp [RelationGraph.empty, bucketGet, mapGet_nil]

lemma keyMirror_empty : keyMirror RelationGraph.empty := by
  intro k rel h
  simp [RelationGraph.empty, mapGet_nil] at h

lemma mirror_empty : MirrorG RelationGraph.empty := by
  intro p hp
  simp [RelationGraph.empty] at hp

/-- **C8** — `addRelation` with an identity key already present in the graph
replaces the stored relation in place: the relation count is unchanged, the
key now maps to the new relation, every other key is untouched, the key list
(hence absence of duplicates and of the old entry) is unchanged, and the
keying discipline and both reverse indices stay consistent. -/
theorem addRelation_existing_replaces (g : RelationGraph) (r : Relation)
    (hK : KeyedOk g) (hwf : wfG g)
    (hex : (mapGet g.relations r.identity.key).isSome = true) :
    (g.addRelation r).relations.length = g.relations.length ∧
    mapGet (g.addRelation r).relations r.identity.key = some r ∧
    (∀ k, k ≠ r.identity.key →
      mapGet (g.addRelation r).relations k = mapGet g.relations k) ∧
    (g.addRelation r).relations.map Prod.fst = g.relations.map Prod.fst ∧
    KeyedOk (g.addRelation r) ∧ wfG (g.addRelation r) := by
  refine ⟨?_, ?_, ?_, ?_, keyed_addRelation g r hK, wf_addRelation g r hK hwf⟩
  · rw [addRelation_relations]
    calc (mapSet g.relations r.identity.key r).length
        = ((mapSet g.relations r.identity.key r).map Prod.fst).length :=
          (List.length_map _ _).symm
      _ = (g.relations.map Prod.fst).length := by rw [mapSet_keys_of_present hex r]
      _ = g.relations.length := List.length_map _ _
  · rw [get_addRelation, if_pos rfl]
  · intro k hk
    rw [get_addRelation, if_neg hk]
  · rw [addRelation_relations]
    exact mapSet_keys_of_present hex r

/-- **C8** witness: updating only the label of the stored `A→B child`
relation replaces it in place in the one-relation graph. -/
theorem addRelation_existing_replaces_witness :
    (KeyedOk c8graph ∧ wfG c8graph ∧
      (mapGet c8graph.relations c8rel1.identity.key).isSome = true) ∧
    (c8graph.addRelation c8rel1).relations.length = c8graph.relations.length ∧
    mapGet (c8graph.addRelation c8rel1).relations c8rel1.identity.key = some c8rel1 := by
  have hK : KeyedOk c8graph := keyed_addRelation _ _ keyed_empty
  have hwf : wfG c8graph := wf_addRelation _ _ keyed_empty wf_empty
  have hex : (mapGet c8graph.relations c8rel1.identity.key).isSome = true := by decide
  have h := addRelation_existing_replaces c8graph c8rel1 hK hwf hex
  exact ⟨⟨hK, hwf, hex⟩, h.1, h.2.1⟩

lemma stateInv_of_invG {g : RelationGraph} (h : InvG g) : StateInv g :=
  ⟨h.1, h.2.1, h.2.2.1, keyMirror_of_mirrorG h.2.2.2⟩

lemma invG_of_stateInv {g : RelationGraph} (h : StateInv g) : InvG g :=
  ⟨h.1, h.2.1, h.2.2.1, mirrorG_of_keyMirror h.1 h.2.1 h.2.2.1.1 h.2.2.2⟩

lemma merge_ok_identity {r o : Relation} {s : ConflictStrategy} {now : Nat} {m : Relation}
    (h : r.merge o s now = .ok m) : m.identity = r.identity := by
  unfold Relation.merge at h
  split at h
  · exact (congrArg Relation.identity (Except.ok.inj h)).symm
  · exact Except.noConfusion h

/-- Core step for `Add`/`Update`: writing a relation and then a mirror
partner (fresh inverse or merged inverse) whose identity key is the
relation's inverse key — and vice versa — preserves the invariant. -/
lemma stateInv_add_pair {g : RelationGraph} (a b : Relation) (hI : StateInv g)
    (hca : relClean a = true) (hcb : relClean b = true)
    (hab : b.identity.key = a.identity.getInverse.key)
    (hba : b.identity.getInverse.key = a.identity.key) :
    StateInv ((g.addRelation a).addRelation b) := by
  obtain ⟨hK, hcl, hwf, hm⟩ := hI
  have hane : a.identity.getInverse.key ≠ a.identity.key :=
    inv_key_ne (by rw [← relClean_eq_idClean]; exact hca)
  refine ⟨keyed_addRelation _ _ (keyed_addRelation _ _ hK),
    clean_addRelation _ _ (clean_addRelation _ _ hcl hca) hcb,
    wf_addRelation _ _ (keyed_addRelation _ _ hK) (wf_addRelation _ _ hK hwf), ?_⟩
  intro k rel hget
  rw [get_addRelation] at hget
  by_cases hkb : k = b.identity.key
  · rw [if_pos hkb] at hget
    have hrel : rel = b := (Option.some.inj hget).symm
    have hne : a.identity.key ≠ b.identity.key := by
      intro h
      rw [hab] at h
      exact hane h.symm
    rw [hrel, hba, get_addRelation, if_neg hne, get_addRelation, if_pos rfl]
    rfl
  · rw [if_neg hkb, get_addRelation] at hget
    by_cases hka : k = a.identity.key
    · rw [if_pos hka] at hget
      have hrel : rel = a := (Option.some.inj hget).symm
      rw [hrel, ← hab, get_addRelation, if_pos rfl]
      rfl
    · rw [if_neg hka] at hget
      have hocc := hm k rel hget
      rw [get_addRelation]
      by_cases h1 : rel.identity.getInverse.key = b.identity.key
      · rw [if_pos h1]; rfl
      · rw [if_neg h1, get_addRelation]
        by_cases h2 : rel.identity.getInverse.key = a.identity.key
        · rw [if_pos h2]; rfl
        · rw [if_neg h2]; exact hocc

/-- The shared bidirectional tail of `processAddFresh` and
`processUpdateGiven`: write `R`, then merge-or-create its mirror. -/
lemma stateInv_mirror_tail (cfg : CommandProcessorConfig) (g : RelationGraph)
    (R : Relation) (v1 : Vault) (now : Nat) (g' : RelationGraph) (v' : Vault)
    (hI : StateInv g) (hcR : relClean R = true)
    (hok : (match (g.addRelation R).getRelation R.getInverse.identity with
       | some e =>
         match e.merge R.getInverse cfg.conflictStrategy now with
         | .ok merged => Except.ok ((g.addRelation R).addRelation merged,
             updateFileForRelation v1 merged)
         | .error err => .error err
       | none => Except.ok ((g.addRelation R).addRelation R.getInverse,
           updateFileForRelation v1 R.getInverse)) =
      (Except.ok (g', v') : Except String (RelationGraph × Vault))) :
    StateInv g' := by
  have hcRi : idClean R.identity = true := by rw [← relClean_eq_idClean]; exact hcR
  cases hlook : (g.addRelation R).getRelation R.getInverse.identity with
  | none =>
    have hok2 : (Except.ok ((g.addRelation R).addRelation R.getInverse,
        updateFileForRelation v1 R.getInverse) :
        Except String (RelationGraph × Vault)) = Except.ok (g', v') := by
      rw [← hok, hlook]
    have hg : (g.addRelation R).addRelation R.getInverse = g' :=
      congrArg Prod.fst (Except.ok.inj hok2)
    have hba : R.getInverse.identity.getInverse.key = R.identity.key := by
      show R.identity.getInverse.getInverse.key = R.identity.key
      rw [identity_inv_invol]
    rw [← hg]
    exact stateInv_add_pair R R.getInverse hI hcR (relClean_getInverse hcR) rfl hba
  | some e =>
    cases hmerge : e.merge R.getInverse cfg.conflictStrategy now with
    | error err =>
      have hok2 : (Except.error err : Except String (RelationGraph × Vault)) =
          Except.ok (g', v') := by
        rw [← hok, hlook]
        show _ = match e.merge R.getInverse cfg.conflictStrategy now with
          | Except.ok merged => Except.ok ((g.addRelation R).addRelation merged,
              updateFileForRelation v1 merged)
          | Except.error err => Except.error err
        rw [hmerge]
      exact Except.noConfusion hok2
    | ok merged =>
      have hok2 : (Except.ok ((g.addRelation R).addRelation merged,
          updateFileForRelation v1 merged) :
          Except String (RelationGraph × Vault)) = Except.ok (g', v') := by
        rw [← hok, hlook]
        show _ = match e.merge R.getInverse cfg.conflictStrategy now with
          | Except.ok merged => Except.ok ((g.addRelation R).addRelation merged,
              updateFileForRelation v1 merged)
          | Except.error err => Except.error err
        rw [hmerge]
      have hg : (g.addRelation R).addRelation merged = g' :=
        congrArg Prod.fst (Except.ok.inj hok2)
      have hlookm : mapGet (g.addRelation R).relations R.identity.getInverse.key = some e :=
        hlook
      have hKe : e.identity.key = R.identity.getInverse.key :=
        keyed_addRelation g R hI.1 _ _ hlookm
      have hce : relClean e = true := clean_addRelation g R hI.2.1 hcR _ _ hlookm
      have hid := merge_ok_identity hmerge
      have hcm : relClean merged = true := by
        rw [relClean_of_identity_eq hid]; exact hce
      have hcei : idClean e.identity = true := by rw [← relClean_eq_idClean]; exact hce
      have hcinv : idClean R.identity.getInverse = true := idClean_getInverse hcRi
      have hab : merged.identity.key = R.identity.getInverse.key := by
        rw [hid]; exact hKe
      have hba : merged.identity.getInverse.key = R.identity.key := by
        rw [hid]
        have h1 := invKey_congr hcei hcinv hKe
        rw [identity_inv_invol] at h1
        exact h1
      rw [← hg]
      exact stateInv_add_pair R merged hI hcR hcm hab hba

/-- `processAddFresh` preserves the invariant (bidirectional mode, clean
non-self endpoints). -/
lemma stateInv_processAddFresh {cfg : CommandProcessorConfig}
    (hb : cfg.enableBidirectionalSync = true) (now : Nat) (g : RelationGraph) (v : Vault)
    (src tgt : TFile) (ty : RelationType) (srcL tgtL : Option String)
    (g' : RelationGraph) (v' : Vault)
    (hI : StateInv g) (hcs : fileClean src = true) (hct : fileClean tgt = true)
    (hne : src.path ≠ tgt.path)
    (hok : processAddFresh cfg now g v src tgt ty srcL tgtL = .ok (g', v')) :
    StateInv g' := by
  have hcR : relClean
      (⟨⟨src, tgt, ty⟩, mkLabelOpt srcL now, mkLabelOpt tgtL now, now, now⟩ : Relation) =
      true := by
    simp [relClean, fileClean] at hcs hct ⊢
    exact ⟨⟨hcs, hct⟩, hne⟩
  refine stateInv_mirror_tail cfg g
    (⟨⟨src, tgt, ty⟩, mkLabelOpt srcL now, mkLabelOpt tgtL now, now, now⟩ : Relation)
    (updateFileForRelation v
      (⟨⟨src, tgt, ty⟩, mkLabelOpt srcL now, mkLabelOpt tgtL now, now, now⟩ : Relation))
    now g' v' hI hcR ?_
  rw [← hok]
  unfold processAddFresh
  rw [if_pos hb]

/-- `processUpdateGiven` (bidirectional defaults) preserves the invariant:
the updated relation keeps the stored identity, so the mirror tail applies. -/
lemma stateInv_processUpdateGiven {cfg : CommandProcessorConfig}
    (hb : cfg.enableBidirectionalSync = true) (now : Nat) (g : RelationGraph) (v : Vault)
    (existing : Relation) (srcL tgtL : Option String) (g' : RelationGraph) (v' : Vault)
    (hI : StateInv g) (hcE : relClean existing = true)
    (hok : processUpdateGiven cfg now g v existing srcL tgtL true = .ok (g', v')) :
    StateInv g' := by
  refine stateInv_mirror_tail cfg g
    (existing.withLabels (jsOrLabel (mkLabelOpt srcL now) existing.sourceLabel)
      (jsOrLabel (mkLabelOpt tgtL now) existing.targetLabel) now)
    (updateFileForRelation v
      (existing.withLabels (jsOrLabel (mkLabelOpt srcL now) existing.sourceLabel)
        (jsOrLabel (mkLabelOpt tgtL now) existing.targetLabel) now))
    now g' v' hI hcE ?_
  rw [← hok]
  unfold processUpdateGiven
  rw [if_pos (show (true && cfg.enableBidirectionalSync) = true by
    rw [Bool.true_and]; exact hb)]

/-- `processAddRelation` preserves the invariant. -/
lemma stateInv_processAddRelation {cfg : CommandProcessorConfig}
    (hb : cfg.enableBidirectionalSync = true) (now : Nat) (g : RelationGraph) (v : Vault)
    (src tgt : TFile) (ty : RelationType) (srcL tgtL : Option String)
    (g' : RelationGraph) (v' : Vault)
    (hI : StateInv g) (hcs : fileClean src = true) (hct : fileClean tgt = true)
    (hne : src.path ≠ tgt.path)
    (hok : processAddRelation cfg now g v src tgt ty srcL tgtL = .ok (g', v')) :
    StateInv g' := by
  cases hlook : g.getRelation (⟨src, tgt, ty⟩ : RelationIdentity) with
  | some existing =>
    have hok2 : processUpdateGiven cfg now g v existing srcL tgtL true = .ok (g', v') := by
      rw [← hok]
      unfold processAddRelation
      rw [hlook]
    exact stateInv_processUpdateGiven hb now g v existing srcL tgtL g' v' hI
      (hI.2.1 _ _ hlook) hok2
  | none =>
    have hok2 : processAddFresh cfg now g v src tgt ty srcL tgtL = .ok (g', v') := by
      rw [← hok]
      unfold processAddRelation
      rw [hlook]
    exact stateInv_processAddFresh hb now g v src tgt ty srcL tgtL g' v' hI hcs hct hne hok2

/-- `processUpdateRelation` (with `updateBidirectional` true) preserves the
invariant. -/
lemma stateInv_processUpdateRelation {cfg : CommandProcessorConfig}
    (hb : cfg.enableBidirectionalSync = true) (now : Nat) (g : RelationGraph) (v : Vault)
    (src tgt : TFile) (ty : RelationType) (srcL tgtL : Option String)
    (g' : RelationGraph) (v' : Vault)
    (hI : StateInv g) (hcs : fileClean src = true) (hct : fileClean tgt = true)
    (hne : src.path ≠ tgt.path)
    (hok : processUpdateRelation cfg now g v src tgt ty srcL tgtL true = .ok (g', v')) :
    StateInv g' := by
  cases hlook : g.getRelation (⟨src, tgt, ty⟩ : RelationIdentity) with
  | some existing =>
    have hok2 : processUpdateGiven cfg now g v existing srcL tgtL true = .ok (g', v') := by
      rw [← hok]
      unfold processUpdateRelation
      rw [hlook]
    exact stateInv_processUpdateGiven hb now g v existing srcL tgtL g' v' hI
      (hI.2.1 _ _ hlook) hok2
  | none =>
    have hok2 : processAddFresh cfg now g v src tgt ty srcL tgtL = .ok (g', v') := by
      rw [← hok]
      unfold processUpdateRelation
      rw [hlook]
    exact stateInv_processAddFresh hb now g v src tgt ty srcL tgtL g' v' hI hcs hct hne hok2

/-- `processRemoveRelation` (with `removeBidirectional` true) preserves the
invariant: under the mirror property the inverse lookup always succeeds, so
the pair is removed together. -/
lemma stateInv_processRemove {cfg : CommandProcessorConfig}
    (hb : cfg.enableBidirectionalSync = true) (g : RelationGraph) (v : Vault)
    (src tgt : TFile) (ty : RelationType)
    (hI : StateInv g) (hcs : fileClean src = true) (hct : fileClean tgt = true)
    (hne : src.path ≠ tgt.path) :
    StateInv (processRemoveRelation cfg g v src tgt ty true).1 := by
  obtain ⟨hK, hcl, hwf, hm⟩ := hI
  have hidc : idClean (⟨src, tgt, ty⟩ : RelationIdentity) = true := by
    simp [idClean, fileClean] at hcs hct ⊢
    exact ⟨⟨hcs, hct⟩, hne⟩
  cases hlook : g.getRelation (⟨src, tgt, ty⟩ : RelationIdentity) with
  | none =>
    have he : processRemoveRelation cfg g v src tgt ty true = (g, v) := by
      unfold processRemoveRelation
      simp only [hlook]
    rw [he]
    exact ⟨hK, hcl, hwf, hm⟩
  | some existing =>
    have hocc := hm _ _ hlook
    have hkeyE : existing.identity.key = (⟨src, tgt, ty⟩ : RelationIdentity).key :=
      hK _ _ hlook
    have hce : idClean existing.identity = true := by
      rw [← relClean_eq_idClean]; exact hcl _ _ hlook
    have hinvk : existing.identity.getInverse.key =
        (⟨src, tgt, ty⟩ : RelationIdentity).getInverse.key :=
      invKey_congr hce hidc hkeyE
    have hocc1 : (mapGet (g.removeRelation ⟨src, tgt, ty⟩).relations
        (⟨src, tgt, ty⟩ : RelationIdentity).getInverse.key).isSome = true := by
      rw [get_removeRelation, if_neg (inv_key_ne hidc), ← hinvk]
      exact hocc
    obtain ⟨ir, hir⟩ := Option.isSome_iff_exists.mp hocc1
    have hir2 : (g.removeRelation ⟨src, tgt, ty⟩).getRelation
        (⟨src, tgt, ty⟩ : RelationIdentity).getInverse = some ir := hir
    have he : processRemoveRelation cfg g v src tgt ty true =
        ((g.removeRelation ⟨src, tgt, ty⟩).removeRelation
          (⟨src, tgt, ty⟩ : RelationIdentity).getInverse,
         removeRelationFromFile (removeRelationFromFile v existing) ir) := by
      unfold processRemoveRelation
      simp only [hlook, Bool.true_and, hb, if_true, hir2]
    rw [he]
    refine ⟨keyed_removeRelation _ _ (keyed_removeRelation _ _ hK),
      clean_removeRelation _ _ (clean_removeRelation _ _ hcl),
      wf_removeRelation _ _ (keyed_removeRelation _ _ hK) (wf_removeRelation _ _ hK hwf),
      ?_⟩
    intro k rel hget
    rw [get_removeRelation] at hget
    by_cases h1 : k = (⟨src, tgt, ty⟩ : RelationIdentity).getInverse.key
    · rw [if_pos h1] at hget; exact Option.noConfusion hget
    · rw [if_neg h1, get_removeRelation] at hget
      by_cases h2 : k = (⟨src, tgt, ty⟩ : RelationIdentity).key
      · rw [if_pos h2] at hget; exact Option.noConfusion hget
      · rw [if_neg h2] at hget
        have hocc0 := hm _ _ hget
        have hkr : rel.identity.key = k := hK _ _ hget
        have hcr : idClean rel.identity = true := by
          rw [← relClean_eq_idClean]; exact hcl _ _ hget
        have hp1 : rel.identity.getInverse.key ≠
            (⟨src, tgt, ty⟩ : RelationIdentity).getInverse.key := by
          intro hEq
          have h3 := invKey_congr (idClean_getInverse hcr) (idClean_getInverse hidc) hEq
          rw [identity_inv_invol, identity_inv_invol] at h3
          exact h2 (by rw [← hkr]; exact h3)
        have hp2 : rel.identity.getInverse.key ≠ (⟨src, tgt, ty⟩ : RelationIdentity).key := by
          intro hEq
          have h3 := invKey_congr (idClean_getInverse hcr) hidc hEq
          rw [identity_inv_invol] at h3
          exact h1 (by rw [← hkr]; exact h3)
        rw [get_removeRelation, if_neg hp1, get_removeRelation, if_neg hp2]
        exact hocc0

/-! ### Facts about the sync diff inputs -/

lemma getRelationsBySource_facts {g : RelationGraph} (hK : KeyedOk g) (hwf : wfG g)
    (f : TFile) :
    (∀ c ∈ g.getRelationsBySource f, mapGet g.relations c.identity.key = some c ∧
      c.identity.sourceFile.path = f.path) ∧
    ((g.getRelationsBySource f).map (fun c => c.identity.key)).Nodup := by
  unfold wfG IdxSound BucketsNodup at hwf
  obtain ⟨hnd, ⟨hsS, hsT⟩, hC, hbS, hbT⟩ := hwf
  have hkeys : ∀ ks : List String,
      ((ks.filterMap (fun k => mapGet g.relations k)).map (fun c => c.identity.key)) =
        ks.filter (fun k => (mapGet g.relations k).isSome) := by
    intro ks
    induction ks with
    | nil => rfl
    | cons k t ih =>
      cases h : mapGet g.relations k with
      | none => simp [List.filterMap_cons, List.filter_cons, h, ih]
      | some c =>
        have hck := hK _ _ h
        simp [List.filterMap_cons, List.filter_cons, h, ih, hck]
  constructor
  · intro c hc
    unfold RelationGraph.getRelationsBySource at hc
    obtain ⟨k, hkmem, hkget⟩ := List.mem_filterMap.mp hc
    have hck : c.identity.key = k := hK _ _ hkget
    refine ⟨by rw [hck]; exact hkget, ?_⟩
    have hq := hsS f.path k hkmem
    rw [hkget] at hq
    simpa using hq
  · unfold RelationGraph.getRelationsBySource
    rw [hkeys]
    exact List.Nodup.filter _ (hbS f.path)

lemma withLabels_identity (r : Relation) (s t : Option RelationLabel) (now : Nat) :
    (r.withLabels s t now).identity = r.identity := rfl

/-- The diff loop partitions the current relations: everything in `toRemove`
comes from the input list, everything in `toUpdate` pairs an input relation
with a same-identity update, and — given pairwise distinct input keys — the
two buckets are key-disjoint. -/
lemma syncStep_fold_facts (now : Nat) :
    ∀ (l : List Relation) (acc : SyncAcc),
    (l.map (fun c => c.identity.key)).Nodup →
    (∀ x ∈ l, (∀ c ∈ acc.1, x.identity.key ≠ c.identity.key) ∧
      (∀ pr ∈ acc.2.1, x.identity.key ≠ pr.2.identity.key)) →
    (∀ c ∈ acc.1, ∀ pr ∈ acc.2.1, c.identity.key ≠ pr.2.identity.key) →
    (∀ c ∈ (l.foldl (syncStep now) acc).1, c ∈ l ∨ c ∈ acc.1) ∧
    (∀ pr ∈ (l.foldl (syncStep now) acc).2.1,
      (pr.1 ∈ l ∧ pr.2.identity = pr.1.identity) ∨ pr ∈ acc.2.1) ∧
    (∀ c ∈ (l.foldl (syncStep now) acc).1, ∀ pr ∈ (l.foldl (syncStep now) acc).2.1,
      c.identity.key ≠ pr.2.identity.key) := by
  intro l
  induction l with
  | nil =>
    intro acc _ _ hdisj
    exact ⟨fun c hc => Or.inr hc, fun pr hpr => Or.inr hpr, hdisj⟩
  | cons x t ih =>
    intro acc hnd hfresh hdisj
    rw [List.map_cons, List.nodup_cons] at hnd
    have hx := hfresh x (List.mem_cons_self x t)
    rw [List.foldl_cons]
    cases hdm : mapGet acc.2.2 x.identity.key with
    | none =>
      have hstep : syncStep now acc x = (acc.1 ++ [x], acc.2.1, acc.2.2) := by
        unfold syncStep; rw [hdm]
      rw [hstep]
      have hfresh' : ∀ y ∈ t,
          (∀ c ∈ (acc.1 ++ [x], acc.2.1, acc.2.2).1, y.identity.key ≠ c.identity.key) ∧
          (∀ pr ∈ (acc.1 ++ [x], acc.2.1, acc.2.2).2.1,
            y.identity.key ≠ pr.2.identity.key) := by
        intro y hy
        refine ⟨?_, (hfresh y (List.mem_cons_of_mem x hy)).2⟩
        intro c hcm
        rcases List.mem_append.mp hcm with h' | h'
        · exact (hfresh y (List.mem_cons_of_mem x hy)).1 c h'
        · simp only [List.mem_singleton] at h'
          subst h'
          intro hEq
          exact hnd.1 (by rw [← hEq]; exact List.mem_map_of_mem _ hy)
      have hdisj' : ∀ c ∈ (acc.1 ++ [x], acc.2.1, acc.2.2).1,
          ∀ pr ∈ (acc.1 ++ [x], acc.2.1, acc.2.2).2.1,
          c.identity.key ≠ pr.2.identity.key := by
        intro c hcm pr hprm
        rcases List.mem_append.mp hcm with h' | h'
        · exact hdisj c h' pr hprm
        · simp only [List.mem_singleton] at h'
          subst h'
          exact hx.2 pr hprm
      have hih := ih (acc.1 ++ [x], acc.2.1, acc.2.2) hnd.2 hfresh' hdisj'
      refine ⟨?_, ?_, hih.2.2⟩
      · intro c hc
        rcases hih.1 c hc with h | h
        · exact Or.inl (List.mem_cons_of_mem x h)
        · rcases List.mem_append.mp h with h' | h'
          · exact Or.inr h'
          · simp only [List.mem_singleton] at h'
            exact Or.inl (h' ▸ List.mem_cons_self x t)
      · intro pr hpr
        rcases hih.2.1 pr hpr with h | h
        · exact Or.inl ⟨List.mem_cons_of_mem x h.1, h.2⟩
        · exact Or.inr h
    | some desired =>
      have hstep : syncStep now acc x = (acc.1,
          (if labelVal x.sourceLabel ≠ labelVal (mkLabelOpt desired.label now) then
            acc.2.1 ++ [(x, x.withLabels (mkLabelOpt desired.label now) x.targetLabel now)]
          else acc.2.1),
          mapDelete acc.2.2 x.identity.key) := by
        unfold syncStep; rw [hdm]
      rw [hstep]
      by_cases hlbl : labelVal x.sourceLabel ≠ labelVal (mkLabelOpt desired.label now)
      · rw [if_pos hlbl]
        have hfresh' : ∀ y ∈ t,
            (∀ c ∈ acc.1, y.identity.key ≠ c.identity.key) ∧
            (∀ pr ∈ acc.2.1 ++
              [(x, x.withLabels (mkLabelOpt desired.label now) x.targetLabel now)],
              y.identity.key ≠ pr.2.identity.key) := by
          intro y hy
          refine ⟨(hfresh y (List.mem_cons_of_mem x hy)).1, ?_⟩
          intro pr hprm
          rcases List.mem_append.mp hprm with h' | h'
          · exact (hfresh y (List.mem_cons_of_mem x hy)).2 pr h'
          · simp only [List.mem_singleton] at h'
            subst h'
            intro hEq
            have hEq' : y.identity.key = x.identity.key := hEq
            exact hnd.1 (by rw [← hEq']; exact List.mem_map_of_mem _ hy)
        have hdisj' : ∀ c ∈ acc.1,
            ∀ pr ∈ acc.2.1 ++
              [(x, x.withLabels (mkLabelOpt desired.label now) x.targetLabel now)],
            c.identity.key ≠ pr.2.identity.key := by
          intro c hcm pr hprm
          rcases List.mem_append.mp hprm with h' | h'
          · exact hdisj c hcm pr h'
          · simp only [List.mem_singleton] at h'
            subst h'
            intro hEq
            have hEq' : c.identity.key = x.identity.key := hEq
            exact hx.1 c hcm hEq'.symm
        have hih := ih (acc.1,
          acc.2.1 ++ [(x, x.withLabels (mkLabelOpt desired.label now) x.targetLabel now)],
          mapDelete acc.2.2 x.identity.key) hnd.2 hfresh' hdisj'
        refine ⟨?_, ?_, hih.2.2⟩
        · intro c hc
          rcases hih.1 c hc with h | h
          · exact Or.inl (List.mem_cons_of_mem x h)
          · exact Or.inr h
        · intro pr hpr
          rcases hih.2.1 pr hpr with h | h
          · exact Or.inl ⟨List.mem_cons_of_mem x h.1, h.2⟩
          · rcases List.mem_append.mp h with h' | h'
            · exact Or.inr h'
            · simp only [List.mem_singleton] at h'
              subst h'
              exact Or.inl ⟨List.mem_cons_self x t, rfl⟩
      · rw [if_neg hlbl]
        have hfresh' : ∀ y ∈ t,
            (∀ c ∈ acc.1, y.identity.key ≠ c.identity.key) ∧
            (∀ pr ∈ acc.2.1, y.identity.key ≠ pr.2.identity.key) := by
          intro y hy
          exact ⟨(hfresh y (List.mem_cons_of_mem x hy)).1,
            (hfresh y (List.mem_cons_of_mem x hy)).2⟩
        have hih := ih (acc.1, acc.2.1, mapDelete acc.2.2 x.identity.key)
          hnd.2 hfresh' hdisj
        refine ⟨?_, ?_, hih.2.2⟩
        · intro c hc
          rcases hih.1 c hc with h | h
          · exact Or.inl (List.mem_cons_of_mem x h)
          · exact Or.inr h
        · intro pr hpr
          rcases hih.2.1 pr hpr with h | h
          · exact Or.inl ⟨List.mem_cons_of_mem x h.1, h.2⟩
          · exact Or.inr h

lemma mem_foldl_mapSet (file : TFile) :
    ∀ (l : List ParsedRel) (m : List (String × ParsedRel)) (p : String × ParsedRel),
    p ∈ l.foldl
      (fun m q => mapSet m (RelationIdentity.key ⟨file, q.targetFile, q.type⟩) q) m →
    p.2 ∈ l ∨ p ∈ m := by
  intro l
  induction l with
  | nil => intro m p hp; exact Or.inr hp
  | cons q t ih =>
    intro m p hp
    rw [List.foldl_cons] at hp
    rcases ih _ p hp with h | h
    · exact Or.inl (List.mem_cons_of_mem q h)
    · rcases mem_mapSet h with h' | h'
      · rw [h']
        exact Or.inl (List.mem_cons_self q t)
      · exact Or.inr h'

lemma desiredMapOf_mem {file : TFile} {parsed : List ParsedRel} {p : String × ParsedRel}
    (hp : p ∈ desiredMapOf file parsed) : p.2 ∈ parsed := by
  unfold desiredMapOf at hp
  rcases mem_foldl_mapSet file parsed [] p hp with h | h
  · exact h
  · simp at h

lemma syncFold_dm_sub (now : Nat) : ∀ (l : List Relation) (acc : SyncAcc)
    (p : String × ParsedRel), p ∈ (l.foldl (syncStep now) acc).2.2 → p ∈ acc.2.2 := by
  intro l
  induction l with
  | nil => intro acc p hp; exact hp
  | cons x t ih =>
    intro acc p hp
    rw [List.foldl_cons] at hp
    have h2 := ih _ p hp
    cases hdm : mapGet acc.2.2 x.identity.key with
    | none =>
      have hstep : (syncStep now acc x).2.2 = acc.2.2 := by
        unfold syncStep; rw [hdm]
      rwa [hstep] at h2
    | some desired =>
      have hstep : (syncStep now acc x).2.2 = mapDelete acc.2.2 x.identity.key := by
        unfold syncStep; rw [hdm]
      rw [hstep] at h2
      exact List.mem_of_mem_filter h2

/-! ### The three apply phases of `processSyncRelations` -/

lemma get_applyRemoves {cfg : CommandProcessorConfig}
    (hb : cfg.enableBidirectionalSync = true) :
    ∀ (l : List Relation) (g : RelationGraph) (v : Vault) (k : String),
    mapGet (applyRemoves cfg g v l).1.relations k =
      if ∃ c ∈ l, k = c.identity.key ∨ k = c.identity.getInverse.key then none
      else mapGet g.relations k := by
  intro l
  induction l with
  | nil =>
    intro g v k
    rw [if_neg (by simp)]
    rfl
  | cons c rest ih =>
    intro g v k
    have hstep : applyRemoves cfg g v (c :: rest) =
        (if cfg.enableBidirectionalSync = true then
          applyRemoves cfg
            ((g.removeRelation c.identity).removeRelation c.identity.getInverse)
            (removeRelationFromFile v c.getInverse) rest
        else applyRemoves cfg (g.removeRelation c.identity) v rest) := rfl
    rw [hstep, if_pos hb, ih]
    by_cases h2 : ∃ x ∈ rest, k = x.identity.key ∨ k = x.identity.getInverse.key
    · obtain ⟨x, hx, hk⟩ := h2
      rw [if_pos ⟨x, hx, hk⟩, if_pos ⟨x, List.mem_cons_of_mem c hx, hk⟩]
    · rw [if_neg h2, get_removeRelation, get_removeRelation]
      by_cases h3 : k = c.identity.getInverse.key
      · rw [if_pos h3, if_pos ⟨c, List.mem_cons_self c rest, Or.inr h3⟩]
      · rw [if_neg h3]
        by_cases h4 : k = c.identity.key
        · rw [if_pos h4, if_pos ⟨c, List.mem_cons_self c rest, Or.inl h4⟩]
        · have hno : ¬∃ x ∈ c :: rest, k = x.identity.key ∨ k = x.identity.getInverse.key := by
            rintro ⟨x, hxm, hk⟩
            rcases List.mem_cons.mp hxm with rfl | hxr
            · rcases hk with hk | hk
              · exact h4 hk
              · exact h3 hk
            · exact h2 ⟨x, hxr, hk⟩
          rw [if_neg h4, if_neg hno]

lemma stateInv3_applyRemoves {cfg : CommandProcessorConfig}
    (hb : cfg.enableBidirectionalSync = true) :
    ∀ (l : List Relation) (g : RelationGraph) (v : Vault),
    KeyedOk g → CleanRels g → wfG g →
    KeyedOk (applyRemoves cfg g v l).1 ∧ CleanRels (applyRemoves cfg g v l).1 ∧
      wfG (applyRemoves cfg g v l).1 := by
  intro l
  induction l with
  | nil => intro g v hK hcl hwf; exact ⟨hK, hcl, hwf⟩
  | cons c rest ih =>
    intro g v hK hcl hwf
    have hstep : applyRemoves cfg g v (c :: rest) =
        (if cfg.enableBidirectionalSync = true then
          applyRemoves cfg
            ((g.removeRelation c.identity).removeRelation c.identity.getInverse)
            (removeRelationFromFile v c.getInverse) rest
        else applyRemoves cfg (g.removeRelation c.identity) v rest) := rfl
    rw [hstep, if_pos hb]
    exact ih _ _ (keyed_removeRelation _ _ (keyed_removeRelation _ _ hK))
      (clean_removeRelation _ _ (clean_removeRelation _ _ hcl))
      (wf_removeRelation _ _ (keyed_removeRelation _ _ hK) (wf_removeRelation _ _ hK hwf))

lemma applyUpdates_ok_facts {cfg : CommandProcessorConfig}
    (hb : cfg.enableBidirectionalSync = true) (now : Nat) :
    ∀ (l : List (Relation × Relation)) (g : RelationGraph) (v : Vault)
      (g' : RelationGraph) (v' : Vault),
    applyUpdates cfg now g v l = .ok (g', v') →
    (∀ pr ∈ l, relClean pr.2 = true) →
    KeyedOk g → CleanRels g → wfG g →
    KeyedOk g' ∧ CleanRels g' ∧ wfG g' ∧
    (∀ k, (mapGet g'.relations k).isSome = true ↔
      ((mapGet g.relations k).isSome = true ∨ ∃ pr ∈ l, k = pr.2.identity.key)) := by
  intro l
  induction l with
  | nil =>
    intro g v g' v' hok hcl hK hc hwf
    have hok2 : (Except.ok (g, v) : Except String (RelationGraph × Vault)) =
        .ok (g', v') := hok
    have hg : g = g' := congrArg Prod.fst (Except.ok.inj hok2)
    subst hg
    exact ⟨hK, hc, hwf, fun k => by simp⟩
  | cons pr rest ih =>
    intro g v g' v' hok hcl hK hc hwf
    have hu : relClean pr.2 = true := hcl pr (List.mem_cons_self pr rest)
    have hstep : applyUpdates cfg now g v (pr :: rest) =
        (if cfg.enableBidirectionalSync = true then
          match (g.addRelation pr.2).getRelation pr.2.getInverse.identity with
          | some e =>
            match e.merge pr.2.getInverse cfg.conflictStrategy now with
            | .ok merged => applyUpdates cfg now ((g.addRelation pr.2).addRelation merged)
                (updateFileForRelation v merged) rest
            | .error err => .error err
          | none => applyUpdates cfg now (g.addRelation pr.2) v rest
        else applyUpdates cfg now (g.addRelation pr.2) v rest) := rfl
    rw [hstep, if_pos hb] at hok
    cases hlook : (g.addRelation pr.2).getRelation pr.2.getInverse.identity with
    | none =>
      have hok3 : applyUpdates cfg now (g.addRelation pr.2) v rest = .ok (g', v') := by
        rw [← hok, hlook]
      have hih := ih _ _ _ _ hok3 (fun q hq => hcl q (List.mem_cons_of_mem pr hq))
        (keyed_addRelation _ _ hK) (clean_addRelation _ _ hc hu)
        (wf_addRelation _ _ hK hwf)
      refine ⟨hih.1, hih.2.1, hih.2.2.1, ?_⟩
      intro k
      rw [hih.2.2.2 k, occ_add_iff]
      simp only [List.mem_cons]
      constructor
      · rintro ((h | h) | ⟨q, hq, hk⟩)
        · exact Or.inr ⟨pr, Or.inl rfl, h⟩
        · exact Or.inl h
        · exact Or.inr ⟨q, Or.inr hq, hk⟩
      · rintro (h | ⟨q, (rfl | hq), hk⟩)
        · exact Or.inl (Or.inr h)
        · exact Or.inl (Or.inl hk)
        · exact Or.inr ⟨q, hq, hk⟩
    | some e =>
      cases hmerge : e.merge pr.2.getInverse cfg.conflictStrategy now with
      | error err =>
        have hok3 : (Except.error err : Except String (RelationGraph × Vault)) =
            .ok (g', v') := by
          rw [← hok, hlook]
          show _ = match e.merge pr.2.getInverse cfg.conflictStrategy now with
            | .ok merged => applyUpdates cfg now ((g.addRelation pr.2).addRelation merged)
                (updateFileForRelation v merged) rest
            | .error err => .error err
          rw [hmerge]
        exact Except.noConfusion hok3
      | ok merged =>
        have hok3 : applyUpdates cfg now ((g.addRelation pr.2).addRelation merged)
            (updateFileForRelation v merged) rest = .ok (g', v') := by
          rw [← hok, hlook]
          show _ = match e.merge pr.2.getInverse cfg.conflictStrategy now with
            | .ok merged => applyUpdates cfg now ((g.addRelation pr.2).addRelation merged)
                (updateFileForRelation v merged) rest
            | .error err => .error err
          rw [hmerge]
        have hlookm : mapGet (g.addRelation pr.2).relations
            pr.2.identity.getInverse.key = some e := hlook
        have hKe : e.identity.key = pr.2.identity.getInverse.key :=
          keyed_addRelation _ _ hK _ _ hlookm
        have hce : relClean e = true := clean_addRelation _ _ hc hu _ _ hlookm
        have hid := merge_ok_identity hmerge
        have hcm : relClean merged = true := by
          rw [relClean_of_identity_eq hid]; exact hce
        have hih := ih _ _ _ _ hok3 (fun q hq => hcl q (List.mem_cons_of_mem pr hq))
          (keyed_addRelation _ _ (keyed_addRelation _ _ hK))
          (clean_addRelation _ _ (clean_addRelation _ _ hc hu) hcm)
          (wf_addRelation _ _ (keyed_addRelation _ _ hK) (wf_addRelation _ _ hK hwf))
        refine ⟨hih.1, hih.2.1, hih.2.2.1, ?_⟩
        have hoccInv : (mapGet (g.addRelation pr.2).relations
            merged.identity.key).isSome = true := by
          rw [hid, hKe, hlookm]
          rfl
        intro k
        rw [hih.2.2.2 k, occ_add_iff, occ_add_iff]
        simp only [List.mem_cons]
        constructor
        · rintro ((h | h) | ⟨q, hq, hk⟩)
          · have h2 := hoccInv
            rw [← h] at h2
            rw [occ_add_iff] at h2
            rcases h2 with h2 | h2
            · exact Or.inr ⟨pr, Or.inl rfl, h2⟩
            · exact Or.inl h2
          · rcases h with h | h
            · exact Or.inr ⟨pr, Or.inl rfl, h⟩
            · exact Or.inl h
          · exact Or.inr ⟨q, Or.inr hq, hk⟩
        · rintro (h | ⟨q, (rfl | hq), hk⟩)
          · exact Or.inl (Or.inr (Or.inr h))
          · exact Or.inl (Or.inr (Or.inl hk))
          · exact Or.inr ⟨q, hq, hk⟩

lemma applyAdds_facts {cfg : CommandProcessorConfig}
    (hb : cfg.enableBidirectionalSync = true) :
    ∀ (l : List Relation) (g : RelationGraph) (v : Vault),
    (∀ a ∈ l, relClean a = true) → KeyedOk g → CleanRels g → wfG g →
    KeyedOk (applyAdds cfg g v l).1 ∧ CleanRels (applyAdds cfg g v l).1 ∧
    wfG (applyAdds cfg g v l).1 ∧
    (∀ k, (mapGet (applyAdds cfg g v l).1.relations k).isSome = true ↔
      ((mapGet g.relations k).isSome = true ∨
        ∃ a ∈ l, k = a.identity.key ∨ k = a.identity.getInverse.key)) := by
  intro l
  induction l with
  | nil =>
    intro g v _ hK hc hwf
    exact ⟨hK, hc, hwf, fun k => by
      rw [show applyAdds cfg g v [] = (g, v) from rfl]
      simp⟩
  | cons a rest ih =>
    intro g v hcl hK hc hwf
    have hca := hcl a (List.mem_cons_self a rest)
    have hstep : applyAdds cfg g v (a :: rest) =
        (if cfg.enableBidirectionalSync = true then
          applyAdds cfg ((g.addRelation a).addRelation a.getInverse)
            (updateFileForRelation v a.getInverse) rest
        else applyAdds cfg (g.addRelation a) v rest) := rfl
    rw [hstep, if_pos hb]
    have hih := ih ((g.addRelation a).addRelation a.getInverse)
      (updateFileForRelation v a.getInverse) (fun q hq => hcl q (List.mem_cons_of_mem a hq))
      (keyed_addRelation _ _ (keyed_addRelation _ _ hK))
      (clean_addRelation _ _ (clean_addRelation _ _ hc hca) (relClean_getInverse hca))
      (wf_addRelation _ _ (keyed_addRelation _ _ hK) (wf_addRelation _ _ hK hwf))
    refine ⟨hih.1, hih.2.1, hih.2.2.1, ?_⟩
    intro k
    rw [hih.2.2.2 k, occ_add_iff, occ_add_iff]
    simp only [List.mem_cons]
    constructor
    · rintro ((h | (h | h)) | ⟨q, hq, hk⟩)
      · exact Or.inr ⟨a, Or.inl rfl, Or.inr h⟩
      · exact Or.inr ⟨a, Or.inl rfl, Or.inl h⟩
      · exact Or.inl h
      · exact Or.inr ⟨q, Or.inr hq, hk⟩
    · rintro (h | ⟨q, (rfl | hq), hk⟩)
      · exact Or.inl (Or.inr (Or.inr h))
      · rcases hk with hk | hk
        · exact Or.inl (Or.inr (Or.inl hk))
        · exact Or.inl (Or.inl hk)
      · exact Or.inr ⟨q, hq, hk⟩

/-- The key-mirror core of `processSyncRelations`: applying the three phases
(removals with their mirrors, label updates with mirror re-merges, additions
with their mirrors) to a graph satisfying the invariant yields a graph
satisfying it, provided the diff lists come from the graph as the source
builds them: removals and updates are stored relations sourced at the synced
file, their keys are disjoint, and additions are clean. -/
lemma stateInv_sync_core {cfg : CommandProcessorConfig}
    (hb : cfg.enableBidirectionalSync = true) (now : Nat) (g : RelationGraph)
    (fpath : String) (toRemove : List Relation) (toUpdate : List (Relation × Relation))
    (toAdd : List Relation) (v0 v1 v3 : Vault) (g2 : RelationGraph) (v2 : Vault)
    (hK : KeyedOk g) (hcl : CleanRels g) (hwf : wfG g) (hm : keyMirror g)
    (hadd : ∀ a ∈ toAdd, idClean a.identity = true)
    (hrem : ∀ c ∈ toRemove, mapGet g.relations c.identity.key = some c ∧
      c.identity.sourceFile.path = fpath)
    (hupd : ∀ pr ∈ toUpdate, mapGet g.relations pr.2.identity.key = some pr.1 ∧
      pr.2.identity = pr.1.identity ∧ pr.2.identity.sourceFile.path = fpath)
    (hdisj : ∀ c ∈ toRemove, ∀ pr ∈ toUpdate, c.identity.key ≠ pr.2.identity.key)
    (hupdok : applyUpdates cfg now (applyRemoves cfg g v0 toRemove).1 v1 toUpdate =
      .ok (g2, v2)) :
    StateInv (applyAdds cfg g2 v3 toAdd).1 := by
  have hcrem : ∀ c ∈ toRemove, relClean c = true := fun c hc => hcl _ _ (hrem c hc).1
  have hcupd : ∀ pr ∈ toUpdate, relClean pr.2 = true := fun pr hpr => by
    rw [relClean_of_identity_eq (hupd pr hpr).2.1]
    exact hcl _ _ (hupd pr hpr).1
  have hcadd : ∀ a ∈ toAdd, relClean a = true := fun a ha => by
    rw [relClean_eq_idClean]
    exact hadd a ha
  have hremFacts := stateInv3_applyRemoves hb toRemove g v0 hK hcl hwf
  have hOcc1 : ∀ k, (mapGet (applyRemoves cfg g v0 toRemove).1.relations k).isSome = true ↔
      (¬(∃ c ∈ toRemove, k = c.identity.key ∨ k = c.identity.getInverse.key) ∧
        (mapGet g.relations k).isSome = true) := by
    intro k
    rw [get_applyRemoves hb]
    by_cases hx : ∃ c ∈ toRemove, k = c.identity.key ∨ k = c.identity.getInverse.key
    · rw [if_pos hx]; simp [hx]
    · rw [if_neg hx]; simp [hx]
  have hupdFacts := applyUpdates_ok_facts hb now toUpdate _ v1 g2 v2 hupdok hcupd
    hremFacts.1 hremFacts.2.1 hremFacts.2.2
  have haddFacts := applyAdds_facts hb toAdd g2 v3 hcadd hupdFacts.1 hupdFacts.2.1
    hupdFacts.2.2.1
  refine ⟨haddFacts.1, haddFacts.2.1, haddFacts.2.2.1, ?_⟩
  intro k rel hget
  have hkrel : rel.identity.key = k := haddFacts.1 _ _ hget
  have hcrel : idClean rel.identity = true := by
    rw [← relClean_eq_idClean]
    exact haddFacts.2.1 _ _ hget
  have hocck : (mapGet (applyAdds cfg g2 v3 toAdd).1.relations k).isSome = true := by
    rw [hget]; rfl
  rw [haddFacts.2.2.2 k] at hocck
  rw [haddFacts.2.2.2 rel.identity.getInverse.key]
  rcases hocck with hocc2 | ⟨a, ha, hka⟩
  · rw [hupdFacts.2.2.2 k] at hocc2
    rcases hocc2 with hocc1 | ⟨pr, hpr, hkpr⟩
    · -- k survived the removal phase: reuse the old occupant's mirror
      rw [hOcc1 k] at hocc1
      obtain ⟨hnotrem, hocc0⟩ := hocc1
      obtain ⟨rel0, hrel0⟩ := Option.isSome_iff_exists.mp hocc0
      have hk0 : rel0.identity.key = k := hK _ _ hrel0
      have hc0 : idClean rel0.identity = true := by
        rw [← relClean_eq_idClean]
        exact hcl _ _ hrel0
      have hpk : rel.identity.getInverse.key = rel0.identity.getInverse.key :=
        invKey_congr hcrel hc0 (hkrel.trans hk0.symm)
      have hocc0' := hm _ _ hrel0
      have hnot2 : ¬(∃ c ∈ toRemove, rel0.identity.getInverse.key = c.identity.key ∨
          rel0.identity.getInverse.key = c.identity.getInverse.key) := by
        rintro ⟨c, hcm, hEq | hEq⟩
        · have hcc : idClean c.identity = true := by
            rw [← relClean_eq_idClean]
            exact hcrem c hcm
          have h3 := invKey_congr (idClean_getInverse hc0) hcc hEq
          rw [identity_inv_invol] at h3
          exact hnotrem ⟨c, hcm, Or.inr (by rw [← hk0]; exact h3)⟩
        · have hcc : idClean c.identity = true := by
            rw [← relClean_eq_idClean]
            exact hcrem c hcm
          have h3 := invKey_congr (idClean_getInverse hc0) (idClean_getInverse hcc) hEq
          rw [identity_inv_invol, identity_inv_invol] at h3
          exact hnotrem ⟨c, hcm, Or.inl (by rw [← hk0]; exact h3)⟩
      refine Or.inl ?_
      rw [hupdFacts.2.2.2]
      refine Or.inl ?_
      rw [hOcc1, hpk]
      exact ⟨hnot2, hocc0'⟩
    · -- k is an update key: the stored pair's mirror survives the removals
      obtain ⟨hstore, hideq, hsrc⟩ := hupd pr hpr
      have hcpr : idClean pr.2.identity = true := by
        rw [← relClean_eq_idClean]
        exact hcupd pr hpr
      have hpk : rel.identity.getInverse.key = pr.2.identity.getInverse.key :=
        invKey_congr hcrel hcpr (hkrel.trans hkpr)
      have hocc0' := hm _ _ hstore
      have hnot2 : ¬(∃ c ∈ toRemove, pr.2.identity.getInverse.key = c.identity.key ∨
          pr.2.identity.getInverse.key = c.identity.getInverse.key) := by
        rintro ⟨c, hcm, hEq | hEq⟩
        · have hcc : idClean c.identity = true := by
            rw [← relClean_eq_idClean]
            exact hcrem c hcm
          obtain ⟨hs, ht, hty⟩ := key_inj_clean (idClean_getInverse hcpr) hcc hEq
          have h2 : pr.2.identity.sourceFile.path = c.identity.targetFile.path := ht
          exact (idClean_spec hcc).2.2
            (((hrem c hcm).2.trans hsrc.symm).trans h2)
        · have hcc : idClean c.identity = true := by
            rw [← relClean_eq_idClean]
            exact hcrem c hcm
          obtain ⟨hs, ht, hty⟩ := key_inj_clean (idClean_getInverse hcpr)
            (idClean_getInverse hcc) hEq
          have h1 : pr.2.identity.targetFile.path = c.identity.targetFile.path := hs
          have h2 : pr.2.identity.sourceFile.path = c.identity.sourceFile.path := ht
          have hty1 : getInverseType pr.2.identity.type = getInverseType c.identity.type :=
            hty
          have hty2 : pr.2.identity.type = c.identity.type := by
            have h4 := congrArg getInverseType hty1
            rw [getInverseType_invol, getInverseType_invol] at h4
            exact h4
          exact hdisj c hcm pr hpr (key_congr h2.symm h1.symm hty2.symm)
      refine Or.inl ?_
      rw [hupdFacts.2.2.2]
      refine Or.inl ?_
      rw [hOcc1, hpk]
      refine ⟨hnot2, ?_⟩
      have heq2 : pr.2.identity.getInverse.key = pr.1.identity.getInverse.key := by
        rw [hideq]
      rw [heq2]
      exact hocc0'
  · rcases hka with hka | hka
    · have hca : idClean a.identity = true := hadd a ha
      have hpk : rel.identity.getInverse.key = a.identity.getInverse.key :=
        invKey_congr hcrel hca (hkrel.trans hka)
      exact Or.inr ⟨a, ha, Or.inr hpk⟩
    · have hca : idClean a.identity = true := hadd a ha
      have hpk : rel.identity.getInverse.key = a.identity.getInverse.getInverse.key :=
        invKey_congr hcrel (idClean_getInverse hca) (hkrel.trans hka)
      rw [identity_inv_invol] at hpk
      exact Or.inr ⟨a, ha, Or.inl hpk⟩

/-- `processSyncRelations` preserves the invariant (bidirectional mode,
clean synced file, clean non-self parsed targets). -/
lemma stateInv_processSync {cfg : CommandProcessorConfig}
    (hb : cfg.enableBidirectionalSync = true) (now : Nat) (g : RelationGraph) (v : Vault)
    (f : TFile) (parsed : List ParsedRel) (g' : RelationGraph) (v' : Vault)
    (hI : StateInv g) (hf : fileClean f = true)
    (hp : ∀ p ∈ parsed, fileClean p.targetFile = true ∧ p.targetFile.path ≠ f.path)
    (hok : processSyncRelations cfg now g v f parsed = .ok (g', v')) :
    StateInv g' := by
  obtain ⟨hK, hcl, hwf, hm⟩ := hI
  set D := (g.getRelationsBySource f).foldl (syncStep now)
    (([], [], desiredMapOf f parsed) : SyncAcc) with hD
  have hcur := getRelationsBySource_facts hK hwf f
  have hfold := syncStep_fold_facts now (g.getRelationsBySource f)
    ([], [], desiredMapOf f parsed) hcur.2
    (fun x _ => ⟨fun c hc => absurd hc (List.not_mem_nil c),
      fun pr hpr => absurd hpr (List.not_mem_nil pr)⟩)
    (fun c hc _ _ => absurd hc (List.not_mem_nil c))
  rw [← hD] at hfold
  have hok2 : (match applyUpdates cfg now (applyRemoves cfg g v D.1).1
      (applyRemoves cfg g v D.1).2 D.2.1 with
    | .error e => .error e
    | .ok (g2, v2) => .ok (applyAdds cfg g2 v2
        (D.2.2.map (fun kp => (⟨⟨f, kp.2.targetFile, kp.2.type⟩,
          mkLabelOpt kp.2.label now, none, now, now⟩ : Relation))))) =
    (Except.ok (g', v') : Except String (RelationGraph × Vault)) := hok
  have hrem : ∀ c ∈ D.1, mapGet g.relations c.identity.key = some c ∧
      c.identity.sourceFile.path = f.path := by
    intro c hc
    rcases hfold.1 c hc with h | h
    · exact hcur.1 c h
    · exact absurd h (List.not_mem_nil c)
  have hupd : ∀ pr ∈ D.2.1, mapGet g.relations pr.2.identity.key = some pr.1 ∧
      pr.2.identity = pr.1.identity ∧ pr.2.identity.sourceFile.path = f.path := by
    intro pr hpr
    rcases hfold.2.1 pr hpr with ⟨hmem, hid⟩ | h
    · have hkeq : pr.2.identity.key = pr.1.identity.key := by rw [hid]
      refine ⟨by rw [hkeq]; exact (hcur.1 pr.1 hmem).1, hid, ?_⟩
      rw [hid]
      exact (hcur.1 pr.1 hmem).2
    · exact absurd h (List.not_mem_nil pr)
  have hadd : ∀ a ∈ D.2.2.map (fun kp => (⟨⟨f, kp.2.targetFile, kp.2.type⟩,
      mkLabelOpt kp.2.label now, none, now, now⟩ : Relation)),
      idClean a.identity = true := by
    intro a ha
    obtain ⟨kp, hkp, hae⟩ := List.mem_map.mp ha
    have hkp0 : kp ∈ desiredMapOf f parsed := by
      have := syncFold_dm_sub now (g.getRelationsBySource f)
        ([], [], desiredMapOf f parsed) kp (by rw [hD] at hkp; exact hkp)
      exact this
    have hpmem : kp.2 ∈ parsed := desiredMapOf_mem hkp0
    obtain ⟨hft, hne⟩ := hp kp.2 hpmem
    rw [← hae]
    simp only [idClean]
    simp [fileClean] at hf hft ⊢
    exact ⟨⟨hf, hft⟩, fun he => hne he.symm⟩
  cases hupdres : applyUpdates cfg now (applyRemoves cfg g v D.1).1
      (applyRemoves cfg g v D.1).2 D.2.1 with
  | error e =>
    have hcontr : (Except.error e : Except String (RelationGraph × Vault)) =
        .ok (g', v') := by
      rw [← hok2, hupdres]
    exact Except.noConfusion hcontr
  | ok p =>
    obtain ⟨g2, v2⟩ := p
    have hfin : (Except.ok (applyAdds cfg g2 v2
        (D.2.2.map (fun kp => (⟨⟨f, kp.2.targetFile, kp.2.type⟩,
          mkLabelOpt kp.2.label now, none, now, now⟩ : Relation)))) :
        Except String (RelationGraph × Vault)) = .ok (g', v') := by
      rw [← hok2, hupdres]
    have hg : (applyAdds cfg g2 v2
        (D.2.2.map (fun kp => (⟨⟨f, kp.2.targetFile, kp.2.type⟩,
          mkLabelOpt kp.2.label now, none, now, now⟩ : Relation)))).1 = g' :=
      congrArg Prod.fst (Except.ok.inj hfin)
    rw [← hg]
    exact stateInv_sync_core hb now g f.path D.1 D.2.1
      (D.2.2.map (fun kp => (⟨⟨f, kp.2.targetFile, kp.2.type⟩,
        mkLabelOpt kp.2.label now, none, now, now⟩ : Relation)))
      v (applyRemoves cfg g v D.1).2 v2 g2 v2 hK hcl hwf hm hadd hrem hupd
      hfold.2.2 hupdres

/-- `execute` preserves the working invariant for every command accepted by
`cmdOkB` (bidirectional mode). -/
lemma stateInv_execute {cfg : CommandProcessorConfig}
    (hb : cfg.enableBidirectionalSync = true) (now : Nat) (g : RelationGraph) (v : Vault)
    (cmd : RelationCommand) (out : RelationGraph × Vault)
    (hI : StateInv g) (hcmd : cmdOkB cmd = true)
    (hok : execute cfg now g v cmd = .ok out) :
    StateInv out.1 := by
  cases cmd with
  | add s t ty sl tl =>
    cases s with
    | none => simp [cmdOkB] at hcmd
    | some fs =>
      cases t with
      | none => simp [cmdOkB] at hcmd
      | some ft =>
        simp only [cmdOkB, Bool.and_eq_true, bne_iff_ne, ne_eq] at hcmd
        have hexec : execute cfg now g v (.add (some fs) (some ft) ty sl tl) =
            (if RelationCommand.validate (.add (some fs) (some ft) ty sl tl) ≠ [] then
              Except.error ("Invalid command: " ++ String.intercalate ", "
                (RelationCommand.validate (.add (some fs) (some ft) ty sl tl)))
            else processAddRelation cfg now g v fs ft ty sl tl) := rfl
        rw [hexec] at hok
        by_cases hval : RelationCommand.validate (.add (some fs) (some ft) ty sl tl) ≠ []
        · rw [if_pos hval] at hok
          exact Except.noConfusion hok
        · rw [if_neg hval] at hok
          exact stateInv_processAddRelation hb now g v fs ft ty sl tl out.1 out.2 hI
            hcmd.1.1 hcmd.1.2 hcmd.2 hok
  | update s t ty sl tl ub =>
    cases s with
    | none => simp [cmdOkB] at hcmd
    | some fs =>
      cases t with
      | none => simp [cmdOkB] at hcmd
      | some ft =>
        simp only [cmdOkB, Bool.and_eq_true, bne_iff_ne, ne_eq] at hcmd
        obtain ⟨⟨⟨h1, h2⟩, h3⟩, hub⟩ := hcmd
        subst hub
        have hexec : execute cfg now g v (.update (some fs) (some ft) ty sl tl true) =
            (if RelationCommand.validate (.update (some fs) (some ft) ty sl tl true) ≠ []
            then Except.error ("Invalid command: " ++ String.intercalate ", "
                (RelationCommand.validate (.update (some fs) (some ft) ty sl tl true)))
            else processUpdateRelation cfg now g v fs ft ty sl tl true) := rfl
        rw [hexec] at hok
        by_cases hval :
            RelationCommand.validate (.update (some fs) (some ft) ty sl tl true) ≠ []
        · rw [if_pos hval] at hok
          exact Except.noConfusion hok
        · rw [if_neg hval] at hok
          exact stateInv_processUpdateRelation hb now g v fs ft ty sl tl out.1 out.2 hI
            h1 h2 h3 hok
  | remove s t ty rb =>
    cases s with
    | none => simp [cmdOkB] at hcmd
    | some fs =>
      cases t with
      | none => simp [cmdOkB] at hcmd
      | some ft =>
        simp only [cmdOkB, Bool.and_eq_true, bne_iff_ne, ne_eq] at hcmd
        obtain ⟨⟨⟨h1, h2⟩, h3⟩, hrb⟩ := hcmd
        subst hrb
        have hexec : execute cfg now g v (.remove (some fs) (some ft) ty true) =
            (if RelationCommand.validate (.remove (some fs) (some ft) ty true) ≠ [] then
              Except.error ("Invalid command: " ++ String.intercalate ", "
                (RelationCommand.validate (.remove (some fs) (some ft) ty true)))
            else .ok (processRemoveRelation cfg g v fs ft ty true)) := rfl
        rw [hexec] at hok
        by_cases hval : RelationCommand.validate (.remove (some fs) (some ft) ty true) ≠ []
        · rw [if_pos hval] at hok
          exact Except.noConfusion hok
        · rw [if_neg hval] at hok
          have hout : processRemoveRelation cfg g v fs ft ty true = out :=
            Except.ok.inj hok
          rw [← hout]
          exact stateInv_processRemove hb g v fs ft ty hI h1 h2 h3
  | sync s parsed =>
    cases s with
    | none => simp [cmdOkB] at hcmd
    | some f =>
      simp only [cmdOkB, Bool.and_eq_true] at hcmd
      have hp : ∀ p ∈ parsed, fileClean p.targetFile = true ∧ p.targetFile.path ≠ f.path := by
        intro p hpm
        have h4 := List.all_eq_true.mp hcmd.2 p hpm
        rw [Bool.and_eq_true, bne_iff_ne] at h4
        exact h4
      have hexec : execute cfg now g v (.sync (some f) parsed) =
          (if RelationCommand.validate (.sync (some f) parsed) ≠ [] then
            Except.error ("Invalid command: " ++ String.intercalate ", "
              (RelationCommand.validate (.sync (some f) parsed)))
          else processSyncRelations cfg now g v f parsed) := rfl
      rw [hexec] at hok
      by_cases hval : RelationCommand.validate (.sync (some f) parsed) ≠ []
      · rw [if_pos hval] at hok
        exact Except.noConfusion hok
      · rw [if_neg hval] at hok
        exact stateInv_processSync hb now g v f parsed out.1 out.2 hI hcmd.1 hp hok

/-- **C1** (amended) — The mirror invariant holds of the empty graph and is
preserved by every successful `execute` of an Add, Update, Remove or Sync
command with bidirectional sync enabled, *provided* the command's files are
pipe-free and the command declares no self-relation and leaves the
per-command bidirectional flags at their defaults (`cmdOkB`): for every
relation `(A,B,type)` stored in the resulting graph, a relation
`(B,A,inverse type)` is also stored, with labels consistent with
`getInverse()` up to pending conflict-resolution merges.  The amendment is
forced: `SyncRelationsCommand.validate` accepts self-relations, and two
bidirectional syncs of one break the invariant
(`mirror_invariant_counterexample`). -/
theorem mirror_invariant_preserved :
    InvG RelationGraph.empty ∧
    (∀ (cfg : CommandProcessorConfig) (now : Nat) (g : RelationGraph) (v : Vault)
      (cmd : RelationCommand) (out : RelationGraph × Vault),
      cfg.enableBidirectionalSync = true → InvG g → cmdOkB cmd = true →
      execute cfg now g v cmd = .ok out → InvG out.1) := by
  constructor
  · exact ⟨keyed_empty, clean_empty, wf_empty, mirror_empty⟩
  · intro cfg now g v cmd out hb hI hcmd hok
    exact invG_of_stateInv
      (stateInv_execute hb now g v cmd out (stateInv_of_invG hI) hcmd hok)

/-- **C1** witness: adding `child A→B` to the empty graph through `execute`
satisfies every hypothesis and the resulting graph satisfies the invariant. -/
theorem mirror_invariant_preserved_witness :
    (procCfg.enableBidirectionalSync = true ∧ cmdOkB c1wCmd = true ∧
      execute procCfg 0 RelationGraph.empty [(fileA, ""), (fileB, "")] c1wCmd =
        .ok c1wOut) ∧
    InvG RelationGraph.empty ∧ InvG c1wOut.1 := by
  have hb : procCfg.enableBidirectionalSync = true := rfl
  have hcmd : cmdOkB c1wCmd = true := by decide
  have hexec : execute procCfg 0 RelationGraph.empty [(fileA, ""), (fileB, "")] c1wCmd =
      .ok c1wOut := by decide
  exact ⟨⟨hb, hcmd, hexec⟩, mirror_invariant_preserved.1,
    mirror_invariant_preserved.2 procCfg 0 RelationGraph.empty
      [(fileA, ""), (fileB, "")] c1wCmd c1wOut hb mirror_invariant_preserved.1 hcmd hexec⟩
